import Mathlib

/-!
Verification of the schema-resolution and code-synthesis engine of the
`openapi-dto-generator` repository (`src/openapi-class-generator.ts` and
`src/schema-dependency.ts`) against its natural-language specification.

The TypeScript sources are shallowly embedded below.  Conventions used
throughout the embedding:

* JavaScript `Map` objects are modelled as association lists
  (`List (key × value)`) in insertion order; `Map.get` is first-match lookup,
  `Map.set` on a fresh key appends at the end.
* JavaScript `Set` objects are modelled as lists used only through membership;
  `Set.add` conses or appends (noted at each use site), which is
  membership-equivalent.
* Recursive procedures are embedded with an explicit fuel parameter
  (`Nat`, structurally decreasing) so that every definition is a computable
  total function; fuel `0` returns the accumulator unchanged.  For the
  topological sorter the chosen fuel is proved sufficient by the theorems
  below, so the embedded function agrees with the source wherever the source
  terminates.
* JavaScript strings are manipulated through their character lists, with
  hand-rolled versions of `toLowerCase`, `includes`, `startsWith`,
  `String.prototype.replace` (first occurrence) and the default
  `Array.prototype.sort` comparator (lexicographic by code unit; JS sort is
  stable, hence extensionally insertion sort).
-/

namespace OAG

/-! ### JavaScript string primitives -/

def chLower (c : Char) : Char := c.toLower

def chUpper (c : Char) : Char := c.toUpper

/-- `s.toLowerCase()` -/
def jsLower (s : String) : String := ⟨s.data.map chLower⟩

/-- Does `pat` occur at the head of `s`? -/
def matchesAt : List Char → List Char → Bool
  | [], _ => true
  | _ :: _, [] => false
  | p :: ps, c :: cs => p == c && matchesAt ps cs

/-- `s.startsWith(pat)` -/
def jsStartsWith (s pat : String) : Bool := matchesAt pat.data s.data

def replOnceCh (pat rep : List Char) : List Char → List Char
  | [] => []
  | c :: cs =>
    if matchesAt pat (c :: cs) then rep ++ (c :: cs).drop pat.length
    else c :: replOnceCh pat rep cs

/-- `s.replace(pat, rep)` for a plain-string pattern: first occurrence only. -/
def jsReplaceOnce (s pat rep : String) : String := ⟨replOnceCh pat.data rep.data s.data⟩

def containsSubGo (pat : List Char) : List Char → Bool
  | [] => matchesAt pat []
  | c :: cs => matchesAt pat (c :: cs) || containsSubGo pat cs

/-- `s.includes(pat)` -/
def jsIncludes (s pat : String) : Bool := containsSubGo pat.data s.data

/-- Lexicographic comparison of strings by code point, as the default
JavaScript `Array.prototype.sort` comparator orders strings. -/
def chLeB : List Char → List Char → Bool
  | [], _ => true
  | _ :: _, [] => false
  | a :: as, b :: bs => if a = b then chLeB as bs else decide (a.val.toNat < b.val.toNat)

def strLeP (a b : String) : Prop := chLeB a.data b.data = true

instance strLePDec : DecidableRel strLeP := fun a b => by
  unfold strLeP; infer_instance

/-- `arr.sort()` on an array of strings: JavaScript's sort is stable, so it is
extensionally insertion sort under the default comparator. -/
def jsSortStrings (l : List String) : List String := l.insertionSort strLeP

/-! ### The dependency graph and the cycle-tolerant topological sorter
(`schema-dependency.ts`, `sortSchemasByDependency`). -/

/-- A dependency graph: schema name to the ordered set of names it references
(a JavaScript `Map<string, Set<string>>` in insertion order). -/
abbrev Graph := List (String × List String)

def keysOf (g : Graph) : List String := g.map (·.1)

/-- `graph.get(node) || new Set()` -/
def depsOf (g : Graph) (n : String) : List String :=
  match g.find? (fun p => p.1 == n) with
  | some p => p.2
  | none => []

/-- All names occurring in the graph, keys and dependency targets
(used only to size the fuel of the embedded recursions). -/
def allNodes (g : Graph) : List String :=
  (keysOf g ++ (g.map (·.2)).flatten).dedup

/-- State of the first pass of `sortSchemasByDependency`: the `visited`,
`visiting`, `cycles` sets and the `sorted` list. -/
structure VisitSt where
  visited : List String
  visiting : List String
  cycles : List String
  sorted : List String
deriving DecidableEq, Repr

/-- The recursive `visit` of the first pass.  `path` is the `path` set handed
down the recursion (`new Set(path)` passes it by value, which is how a Lean
list argument behaves).  `cycles.add` over the path is list append; `visiting`
and `visited` additions are conses; `sorted.unshift` is a cons. -/
def visit (g : Graph) : Nat → String → List String → VisitSt → VisitSt
  | 0, _, _, s => s
  | fuel+1, node, path, s =>
    if node ∈ s.visited then s
    else if node ∈ s.visiting then { s with cycles := s.cycles ++ path }
    else
      let s1 : VisitSt := { s with visiting := node :: s.visiting }
      let s2 := (depsOf g node).foldl
        (fun acc dep =>
          if dep ∈ acc.visited then acc else visit g fuel dep (node :: path) acc) s1
      { s2 with
          visiting := s2.visiting.erase node
          visited := node :: s2.visited
          sorted := node :: s2.sorted }

/-- First pass of `sortSchemasByDependency`: cycle detection and the
children-first order, starting from every unvisited key. -/
def firstPass (g : Graph) : VisitSt :=
  (keysOf g).foldl
    (fun s node =>
      if node ∈ s.visited then s else visit g (allNodes g).length.succ node [] s)
    ⟨[], [], [], []⟩

/-- The set of nodes the first pass marks as cycle participants. -/
def cycleMarks (g : Graph) : List String := (firstPass g).cycles

/-- State of the second pass: `finalSorted` and `processed`. -/
structure ProcSt where
  finalSorted : List String
  processed : List String
deriving DecidableEq, Repr

/-- The recursive `processNode` of the second pass: non-cyclic dependencies
are processed recursively, cyclic dependencies are pushed directly, then the
node itself is pushed (with no repeat-guard on this last push). -/
def processNode (g : Graph) (cycles : List String) : Nat → String → ProcSt → ProcSt
  | 0, _, s => s
  | fuel+1, node, s =>
    if node ∈ s.processed then s
    else
      let deps := depsOf g node
      let s1 := deps.foldl
        (fun acc dep =>
          if dep ∈ cycles then acc else processNode g cycles fuel dep acc) s
      let s2 := deps.foldl
        (fun acc dep =>
          if dep ∈ cycles then
            if dep ∈ acc.processed then acc
            else ⟨acc.finalSorted ++ [dep], dep :: acc.processed⟩
          else acc) s1
      ⟨s2.finalSorted ++ [node], node :: s2.processed⟩

/-- `sortSchemasByDependency` (schema-dependency.ts): first pass, then the
second pass over the first pass's `sorted` list. -/
def sortSchemasByDependency (g : Graph) : List String :=
  let s1 := firstPass g
  (s1.sorted.foldl
    (fun acc node => processNode g s1.cycles s1.sorted.length.succ node acc)
    ⟨[], []⟩).finalSorted

/-! ### Invariants of the first pass -/

/-- Every dependency target mentioned anywhere in the graph. -/
def depsUnion (g : Graph) : List String := (g.map (·.2)).flatten

theorem depsOf_subset_depsUnion {g : Graph} {u v : String}
    (h : v ∈ depsOf g u) : v ∈ depsUnion g := by
  unfold depsOf at h
  cases hf : g.find? (fun p => p.1 == u) with
  | none => rw [hf] at h; simp at h
  | some p =>
    rw [hf] at h
    have hp : p ∈ g := List.mem_of_find?_eq_some hf
    exact List.mem_flatten.mpr ⟨p.2, List.mem_map.mpr ⟨p, hp, rfl⟩, h⟩

theorem keys_subset_allNodes {g : Graph} {k : String}
    (h : k ∈ keysOf g) : k ∈ allNodes g := by
  unfold allNodes
  exact List.mem_dedup.mpr (List.mem_append.mpr (Or.inl h))

theorem depsUnion_subset_allNodes {g : Graph} {v : String}
    (h : v ∈ depsUnion g) : v ∈ allNodes g := by
  unfold allNodes
  exact List.mem_dedup.mpr (List.mem_append.mpr (Or.inr h))

/-- `v` occurs strictly after (one fixed occurrence of) `u` in `l`. -/
def AppearsAfter (l : List String) (u v : String) : Prop :=
  ∃ l₁ l₂, l = l₁ ++ u :: l₂ ∧ v ∈ l₂

theorem appearsAfter_prepend {l pre : List String} {u v : String}
    (h : AppearsAfter l u v) : AppearsAfter (pre ++ l) u v := by
  obtain ⟨l₁, l₂, hl, hv⟩ := h
  exact ⟨pre ++ l₁, l₂, by rw [hl, List.append_assoc], hv⟩

/-- The invariant of the first pass: `sorted` lists exactly the visited nodes,
without duplicates; every dependency of a visited node is visited or on the
stack; and every dependency of a visited node that is not marked as a cycle
participant appears strictly after it in `sorted` (i.e. finished earlier). -/
def WF1 (g : Graph) (s : VisitSt) : Prop :=
  (∀ x, x ∈ s.sorted ↔ x ∈ s.visited) ∧
  s.sorted.Nodup ∧
  (∀ u, u ∈ s.visited → ∀ v, v ∈ depsOf g u → v ∈ s.visited ∨ v ∈ s.visiting) ∧
  (∀ u, u ∈ s.visited → u ∉ s.cycles → ∀ v, v ∈ depsOf g u →
    AppearsAfter s.sorted u v)

/-- What a single `visit` call (and hence any sequence of them) does to the
state, unconditionally: the `visiting` stack is restored, `visited` and
`cycles` grow, `sorted` grows by prepending, and no node that was on the
`visiting` stack is newly added to `visited`. -/
def Rel (s s' : VisitSt) : Prop :=
  s'.visiting = s.visiting ∧
  (∀ x, x ∈ s.visited → x ∈ s'.visited) ∧
  (∀ x, x ∈ s.cycles → x ∈ s'.cycles) ∧
  (∃ pre, s'.sorted = pre ++ s.sorted) ∧
  (∀ x, x ∈ s'.visited → x ∈ s.visited ∨ x ∉ s.visiting)

theorem rel_refl (s : VisitSt) : Rel s s :=
  ⟨rfl, fun _ h => h, fun _ h => h, ⟨[], rfl⟩, fun _ h => Or.inl h⟩

theorem rel_trans {s t u : VisitSt} (h1 : Rel s t) (h2 : Rel t u) : Rel s u := by
  obtain ⟨hv1, hvis1, hcy1, ⟨p1, hs1⟩, hn1⟩ := h1
  obtain ⟨hv2, hvis2, hcy2, ⟨p2, hs2⟩, hn2⟩ := h2
  refine ⟨hv2.trans hv1, fun x hx => hvis2 x (hvis1 x hx),
    fun x hx => hcy2 x (hcy1 x hx), ⟨p2 ++ p1, by rw [hs2, hs1, List.append_assoc]⟩,
    fun x hx => ?_⟩
  rcases hn2 x hx with h | h
  · exact hn1 x h
  · rw [hv1] at h; exact Or.inr h

/-- Number of graph nodes not yet on the `visiting` stack: the fuel measure
of the first pass. -/
def unvisitedCount (g : Graph) (viz : List String) : Nat :=
  ((allNodes g).filter (fun x => decide (¬ x ∈ viz))).length

theorem filter_imp_length_le {l : List String} {p q : String → Bool}
    (h : ∀ x, q x = true → p x = true) :
    (l.filter q).length ≤ (l.filter p).length := by
  induction l with
  | nil => simp
  | cons a l ih =>
    by_cases hq : q a = true
    · rw [List.filter_cons_of_pos hq, List.filter_cons_of_pos (h a hq)]
      simpa using ih
    · rw [List.filter_cons_of_neg (by simpa using hq)]
      rcases hp : p a with _ | _
      · rw [List.filter_cons_of_neg (by simp [hp])]; exact ih
      · rw [List.filter_cons_of_pos hp]
        exact ih.trans (Nat.le_succ _)

theorem unvisitedCount_lt {g : Graph} {viz : List String} {a : String}
    (ha : a ∈ allNodes g) (hm : a ∉ viz) :
    unvisitedCount g (a :: viz) < unvisitedCount g viz := by
  unfold unvisitedCount
  have key : ∀ l : List String, a ∈ l →
      (l.filter (fun x => decide (¬ x ∈ a :: viz))).length <
      (l.filter (fun x => decide (¬ x ∈ viz))).length := by
    intro l
    induction l with
    | nil => intro h; simp at h
    | cons b l ih =>
      intro hb
      by_cases hba : b = a
      · subst hba
        rw [List.filter_cons_of_neg (by simp), List.filter_cons_of_pos (by simpa using hm)]
        have := @filter_imp_length_le l (fun x => decide (¬ x ∈ viz))
          (fun x => decide (¬ x ∈ b :: viz))
          (by intro x hx; simp at hx ⊢; exact fun h => absurd h hx.2)
        simp only [List.length_cons]
        omega
      · have hb' : a ∈ l := by
          rcases List.mem_cons.mp hb with h | h
          · exact absurd h.symm hba
          · exact h
        by_cases hbv : b ∈ viz
        · rw [List.filter_cons_of_neg (by simp [hbv]), List.filter_cons_of_neg (by simp [hbv])]
          exact ih hb'
        · rw [List.filter_cons_of_pos (by simp [hbv, hba]),
            List.filter_cons_of_pos (by simpa using hbv)]
          simpa using ih hb'
  exact key _ ha

theorem visit_succ_mem {g : Graph} {fuel : Nat} {node : String} {path : List String}
    {s : VisitSt} (h : node ∈ s.visited) :
    visit g (fuel + 1) node path s = s := by
  simp [visit, h]

theorem visit_succ_visiting {g : Graph} {fuel : Nat} {node : String} {path : List String}
    {s : VisitSt} (h1 : node ∉ s.visited) (h2 : node ∈ s.visiting) :
    visit g (fuel + 1) node path s = { s with cycles := s.cycles ++ path } := by
  simp [visit, h1, h2]

theorem visit_succ_main {g : Graph} {fuel : Nat} {node : String} {path : List String}
    {s : VisitSt} (h1 : node ∉ s.visited) (h2 : node ∉ s.visiting) :
    visit g (fuel + 1) node path s =
      (fun s2 : VisitSt =>
        { s2 with
            visiting := s2.visiting.erase node
            visited := node :: s2.visited
            sorted := node :: s2.sorted })
      ((depsOf g node).foldl
        (fun acc dep =>
          if dep ∈ acc.visited then acc else visit g fuel dep (node :: path) acc)
        { s with visiting := node :: s.visiting }) := by
  simp [visit, h1, h2]

/-- The master specification of `visit`: the unconditional `Rel` relation, the
origin of newly visited nodes, and — under sufficient fuel — the completion
postcondition and preservation of the `WF1` invariant. -/
theorem visit_spec (g : Graph) : ∀ (fuel : Nat) (node : String) (path : List String)
    (s : VisitSt),
    Rel s (visit g fuel node path s) ∧
    (∀ x, x ∈ (visit g fuel node path s).visited →
      x ∈ s.visited ∨ x = node ∨ x ∈ depsUnion g) ∧
    (unvisitedCount g s.visiting < fuel → node ∈ allNodes g →
      (∀ y, y ∈ s.visiting → y ∈ allNodes g) →
      ((node ∈ (visit g fuel node path s).visited ∨
         (node ∈ s.visiting ∧ ∀ x, x ∈ path → x ∈ (visit g fuel node path s).cycles)) ∧
       (WF1 g s → WF1 g (visit g fuel node path s)))) := by
  intro fuel
  induction fuel with
  | zero =>
    intro node path s
    exact ⟨rel_refl s, fun x hx => Or.inl hx, fun hcnt => absurd hcnt (by omega)⟩
  | succ fuel ih =>
    intro node path s
    by_cases h1 : node ∈ s.visited
    · rw [visit_succ_mem h1]
      exact ⟨rel_refl s, fun x hx => Or.inl hx,
        fun _ _ _ => ⟨Or.inl h1, fun hw => hw⟩⟩
    · by_cases h2 : node ∈ s.visiting
      · rw [visit_succ_visiting h1 h2]
        refine ⟨⟨rfl, fun x hx => hx, fun x hx => List.mem_append.mpr (Or.inl hx),
            ⟨[], rfl⟩, fun x hx => Or.inl hx⟩,
          fun x hx => Or.inl hx, fun _ _ _ => ⟨?_, ?_⟩⟩
        · exact Or.inr ⟨h2, fun x hx => List.mem_append.mpr (Or.inr hx)⟩
        · rintro ⟨w1, w2, w3, w4⟩
          refine ⟨w1, w2, w3, fun u hu hucy v hv => w4 u hu ?_ v hv⟩
          intro hc
          exact hucy (List.mem_append.mpr (Or.inl hc))
      · rw [visit_succ_main h1 h2]
        -- the dependency fold
        set s1 : VisitSt := { s with visiting := node :: s.visiting } with hs1
        have fold_spec :
            ∀ (l : List String), (∀ d, d ∈ l → d ∈ depsUnion g) → ∀ t : VisitSt,
            t.visiting = node :: s.visiting →
            (Rel t (l.foldl
              (fun acc dep =>
                if dep ∈ acc.visited then acc
                else visit g fuel dep (node :: path) acc) t) ∧
            (∀ x, x ∈ (l.foldl
              (fun acc dep =>
                if dep ∈ acc.visited then acc
                else visit g fuel dep (node :: path) acc) t).visited →
              x ∈ t.visited ∨ x ∈ depsUnion g) ∧
            (unvisitedCount g (node :: s.visiting) < fuel → node ∈ allNodes g →
              (∀ y, y ∈ s.visiting → y ∈ allNodes g) →
              ((WF1 g t → WF1 g (l.foldl
                (fun acc dep =>
                  if dep ∈ acc.visited then acc
                  else visit g fuel dep (node :: path) acc) t)) ∧
               (∀ v, v ∈ l → v ∈ (l.foldl
                (fun acc dep =>
                  if dep ∈ acc.visited then acc
                  else visit g fuel dep (node :: path) acc) t).visited ∨
                 (v ∈ node :: s.visiting ∧ node ∈ (l.foldl
                (fun acc dep =>
                  if dep ∈ acc.visited then acc
                  else visit g fuel dep (node :: path) acc) t).cycles))))) := by
          intro l
          induction l with
          | nil =>
            intro _ t htviz
            exact ⟨rel_refl t, fun x hx => Or.inl hx,
              fun _ _ _ => ⟨fun hw => hw, fun v hv => absurd hv (by simp)⟩⟩
          | cons d l' ihl =>
            intro hdl t htviz
            rw [List.foldl_cons]
            set t' : VisitSt :=
              (if d ∈ t.visited then t else visit g fuel d (node :: path) t) with ht'
            have hd_union : d ∈ depsUnion g := hdl d (by simp)
            -- facts about the single step t → t'
            have step_rel : Rel t t' := by
              rw [ht']
              by_cases hd : d ∈ t.visited
              · rw [if_pos hd]; exact rel_refl t
              · rw [if_neg hd]; exact (ih d (node :: path) t).1
            have step_src : ∀ x, x ∈ t'.visited → x ∈ t.visited ∨ x ∈ depsUnion g := by
              rw [ht']
              by_cases hd : d ∈ t.visited
              · rw [if_pos hd]; exact fun x hx => Or.inl hx
              · rw [if_neg hd]
                intro x hx
                rcases (ih d (node :: path) t).2.1 x hx with h | h | h
                · exact Or.inl h
                · exact Or.inr (h ▸ hd_union)
                · exact Or.inr h
            have ht'viz : t'.visiting = node :: s.visiting := step_rel.1.trans htviz
            have hrest := ihl (fun x hx => hdl x (by simp [hx])) t' ht'viz
            refine ⟨rel_trans step_rel hrest.1, ?_, ?_⟩
            · intro x hx
              rcases hrest.2.1 x hx with h | h
              · exact step_src x h
              · exact Or.inr h
            · intro hcnt hna hviza
              have hstep_cond :
                  (WF1 g t → WF1 g t') ∧
                  (d ∈ t'.visited ∨ (d ∈ node :: s.visiting ∧ node ∈ t'.cycles)) := by
                rw [ht']
                by_cases hd : d ∈ t.visited
                · rw [if_pos hd]; exact ⟨fun hw => hw, Or.inl hd⟩
                · rw [if_neg hd]
                  have hcnt' : unvisitedCount g t.visiting < fuel := by
                    rw [htviz]; exact hcnt
                  have hda : d ∈ allNodes g := depsUnion_subset_allNodes hd_union
                  have hviz' : ∀ y, y ∈ t.visiting → y ∈ allNodes g := by
                    intro y hy
                    rw [htviz] at hy
                    rcases List.mem_cons.mp hy with h | h
                    · exact h ▸ hna
                    · exact hviza y h
                  obtain ⟨hpost, hwf⟩ := (ih d (node :: path) t).2.2 hcnt' hda hviz'
                  refine ⟨hwf, ?_⟩
                  rcases hpost with h | ⟨hdin, hmark⟩
                  · exact Or.inl h
                  · refine Or.inr ⟨htviz ▸ hdin, hmark node (by simp)⟩
              obtain ⟨hwf_rest, hv_rest⟩ := hrest.2.2 hcnt hna hviza
              refine ⟨fun hw => hwf_rest (hstep_cond.1 hw), ?_⟩
              intro v hv
              rcases List.mem_cons.mp hv with rfl | hv'
              · rcases hstep_cond.2 with h | ⟨hvin, hmark⟩
                · exact Or.inl (hrest.1.2.1 v h)
                · exact Or.inr ⟨hvin, hrest.1.2.2.1 node hmark⟩
              · exact hv_rest v hv'
        have hdu : ∀ d, d ∈ depsOf g node → d ∈ depsUnion g :=
          fun d hd => depsOf_subset_depsUnion hd
        have hs1viz : s1.visiting = node :: s.visiting := rfl
        obtain ⟨fr, fsrc, fcond⟩ := fold_spec (depsOf g node) hdu s1 hs1viz
        set s2 := (depsOf g node).foldl
          (fun acc dep =>
            if dep ∈ acc.visited then acc
            else visit g fuel dep (node :: path) acc) s1 with hs2
        obtain ⟨hviz2, hvis2, hcy2, ⟨pre2, hsort2⟩, hn72⟩ := fr
        have herase : s2.visiting.erase node = s.visiting := by
          rw [hviz2, hs1viz]
          exact List.erase_cons_head node s.visiting
        constructor
        · -- Rel s s'
          refine ⟨herase, ?_, ?_, ⟨node :: pre2, ?_⟩, ?_⟩
          · intro x hx
            exact List.mem_cons_of_mem _ (hvis2 x hx)
          · intro x hx
            exact hcy2 x hx
          · show node :: s2.sorted = node :: pre2 ++ s.sorted
            rw [hsort2]; rfl
          · intro x hx
            rcases List.mem_cons.mp hx with rfl | hx'
            · exact Or.inr h2
            · rcases hn72 x hx' with h | h
              · exact Or.inl h
              · rw [hs1viz] at h
                exact Or.inr fun hvv => h (List.mem_cons_of_mem _ hvv)
        constructor
        · -- origin of newly visited nodes
          intro x hx
          rcases List.mem_cons.mp hx with rfl | hx'
          · exact Or.inr (Or.inl rfl)
          · rcases fsrc x hx' with h | h
            · exact Or.inl h
            · exact Or.inr (Or.inr h)
        · -- conditional part
          intro hcnt hna hviza
          have hcnt' : unvisitedCount g (node :: s.visiting) < fuel := by
            have := @unvisitedCount_lt g s.visiting _ hna h2
            omega
          obtain ⟨hwf_fold, hv_fold⟩ := fcond hcnt' hna hviza
          refine ⟨Or.inl (by simp), ?_⟩
          rintro hw
          have hw1 : WF1 g s1 := by
            obtain ⟨w1, w2, w3, w4⟩ := hw
            refine ⟨w1, w2, ?_, w4⟩
            intro u hu v hv
            rcases w3 u hu v hv with h | h
            · exact Or.inl h
            · exact Or.inr (List.mem_cons_of_mem _ h)
          have hw2 : WF1 g s2 := hwf_fold hw1
          obtain ⟨w1, w2, w3, w4⟩ := hw2
          have hnode_not_s2 : node ∉ s2.visited := by
            intro hmem
            rcases hn72 node hmem with h | h
            · exact h1 h
            · exact h (by rw [hs1viz]; simp)
          refine ⟨?_, ?_, ?_, ?_⟩
          · intro x
            constructor
            · intro hx
              rcases List.mem_cons.mp hx with rfl | hx'
              · simp
              · exact List.mem_cons_of_mem _ ((w1 x).mp hx')
            · intro hx
              rcases List.mem_cons.mp hx with rfl | hx'
              · simp
              · exact List.mem_cons_of_mem _ ((w1 x).mpr hx')
          · refine List.nodup_cons.mpr ⟨?_, w2⟩
            intro hmem
            exact hnode_not_s2 ((w1 node).mp hmem)
          · intro u hu v hv
            rcases List.mem_cons.mp hu with rfl | hu'
            · rcases hv_fold v hv with h | ⟨hvin, _⟩
              · exact Or.inl (List.mem_cons_of_mem _ h)
              · rcases List.mem_cons.mp hvin with rfl | hvv
                · exact Or.inl (by simp)
                · exact Or.inr (by simpa [herase] using hvv)
            · rcases w3 u hu' v hv with h | h
              · exact Or.inl (List.mem_cons_of_mem _ h)
              · rw [hviz2, hs1viz] at h
                rcases List.mem_cons.mp h with rfl | hvv
                · exact Or.inl (by simp)
                · exact Or.inr (by simpa [herase] using hvv)
          · intro u hu hucy v hv
            rcases List.mem_cons.mp hu with rfl | hu'
            · rcases hv_fold v hv with h | ⟨_, hmark⟩
              · exact ⟨[], s2.sorted, rfl, (w1 v).mpr h⟩
              · exact absurd hmark hucy
            · have := w4 u hu' hucy v hv
              exact @appearsAfter_prepend _ [node] _ _ this

/-- Facts about the completed first pass: the stack is empty, the invariant
holds, every key was visited, and everything visited is a key or a
dependency target. -/
theorem firstPass_props (g : Graph) :
    (firstPass g).visiting = [] ∧
    WF1 g (firstPass g) ∧
    (∀ k, k ∈ keysOf g → k ∈ (firstPass g).visited) ∧
    (∀ x, x ∈ (firstPass g).visited → x ∈ keysOf g ∨ x ∈ depsUnion g) := by
  have main : ∀ (l : List String), (∀ k, k ∈ l → k ∈ keysOf g) → ∀ s : VisitSt,
      s.visiting = [] → WF1 g s → (∀ x, x ∈ s.visited → x ∈ keysOf g ∨ x ∈ depsUnion g) →
      ((l.foldl (fun s node =>
          if node ∈ s.visited then s
          else visit g (allNodes g).length.succ node [] s) s).visiting = [] ∧
       WF1 g (l.foldl (fun s node =>
          if node ∈ s.visited then s
          else visit g (allNodes g).length.succ node [] s) s) ∧
       (∀ x, x ∈ s.visited → x ∈ (l.foldl (fun s node =>
          if node ∈ s.visited then s
          else visit g (allNodes g).length.succ node [] s) s).visited) ∧
       (∀ k, k ∈ l → k ∈ (l.foldl (fun s node =>
          if node ∈ s.visited then s
          else visit g (allNodes g).length.succ node [] s) s).visited) ∧
       (∀ x, x ∈ (l.foldl (fun s node =>
          if node ∈ s.visited then s
          else visit g (allNodes g).length.succ node [] s) s).visited →
         x ∈ keysOf g ∨ x ∈ depsUnion g)) := by
    intro l
    induction l with
    | nil =>
      intro _ s hviz hwf hsrc
      exact ⟨hviz, hwf, fun x hx => hx, fun k hk => absurd hk (by simp), hsrc⟩
    | cons a l' ihl =>
      intro hkeys s hviz hwf hsrc
      rw [List.foldl_cons]
      set t : VisitSt :=
        (if a ∈ s.visited then s else visit g (allNodes g).length.succ a [] s) with ht
      have hka : a ∈ keysOf g := hkeys a (by simp)
      have hstep : t.visiting = [] ∧ WF1 g t ∧ (∀ x, x ∈ s.visited → x ∈ t.visited) ∧
          a ∈ t.visited ∧ (∀ x, x ∈ t.visited → x ∈ keysOf g ∨ x ∈ depsUnion g) := by
        rw [ht]
        by_cases ha : a ∈ s.visited
        · rw [if_pos ha]
          exact ⟨hviz, hwf, fun x hx => hx, ha, hsrc⟩
        · rw [if_neg ha]
          obtain ⟨hrel, hsrc', hcond⟩ := visit_spec g (allNodes g).length.succ a [] s
          have hcnt : unvisitedCount g s.visiting < (allNodes g).length.succ := by
            have : unvisitedCount g s.visiting ≤ (allNodes g).length := by
              unfold unvisitedCount
              exact (List.length_filter_le _ _)
            omega
          have hvizsub : ∀ y, y ∈ s.visiting → y ∈ allNodes g := by
            rw [hviz]; intro y hy; exact absurd hy (by simp)
          obtain ⟨hpost, hwfp⟩ := hcond hcnt (keys_subset_allNodes hka) hvizsub
          have hviz' : (visit g (allNodes g).length.succ a [] s).visiting = [] :=
            hrel.1.trans hviz
          have hain : a ∈ (visit g (allNodes g).length.succ a [] s).visited := by
            rcases hpost with h | ⟨hmem, _⟩
            · exact h
            · rw [hviz] at hmem; exact absurd hmem (by simp)
          refine ⟨hviz', hwfp hwf, fun x hx => hrel.2.1 x hx, hain, ?_⟩
          intro x hx
          rcases hsrc' x hx with h | h | h
          · exact hsrc x h
          · exact Or.inl (h ▸ hka)
          · exact Or.inr h
      obtain ⟨htviz, htwf, htmono, hta, htsrc⟩ := hstep
      obtain ⟨rviz, rwf, rmono, rmem, rsrc⟩ :=
        ihl (fun k hk => hkeys k (by simp [hk])) t htviz htwf htsrc
      refine ⟨rviz, rwf, fun x hx => rmono x (htmono x hx), ?_, rsrc⟩
      intro k hk
      rcases List.mem_cons.mp hk with rfl | hk'
      · exact rmono k hta
      · exact rmem k hk'
  have hwf0 : WF1 g ⟨[], [], [], []⟩ := by
    refine ⟨by simp, List.nodup_nil, ?_, ?_⟩
    · intro u hu; exact absurd hu (by simp)
    · intro u hu; exact absurd hu (by simp)
  obtain ⟨h1, h2, _, h4, h5⟩ := main (keysOf g) (fun k hk => hk) ⟨[], [], [], []⟩ rfl hwf0
    (fun x hx => absurd hx (by simp))
  exact ⟨h1, h2, h4, h5⟩

/-! ### Positions in a list -/

/-- Index of the first occurrence of `x` in `l` (`l.length` when absent). -/
def posIn : List String → String → Nat
  | [], _ => 0
  | a :: l, x => if a = x then 0 else (posIn l x) + 1

theorem posIn_lt_length {l : List String} {x : String} (h : x ∈ l) :
    posIn l x < l.length := by
  induction l with
  | nil => exact absurd h (by simp)
  | cons a l ih =>
    by_cases hax : a = x
    · simp [posIn, hax]
    · rcases List.mem_cons.mp h with h' | h'
      · exact absurd h'.symm hax
      · simp only [posIn, if_neg hax, List.length_cons]
        exact Nat.succ_lt_succ (ih h')

theorem posIn_append_of_not_mem {l₁ : List String} {x : String} (h : x ∉ l₁)
    (l₂ : List String) : posIn (l₁ ++ l₂) x = l₁.length + posIn l₂ x := by
  induction l₁ with
  | nil => simp [posIn]
  | cons a l ih =>
    have hax : a ≠ x := fun he => h (by simp [he])
    have h' : x ∉ l := fun hm => h (by simp [hm])
    show posIn (a :: (l ++ l₂)) x = (a :: l).length + posIn l₂ x
    simp only [posIn, if_neg hax, List.length_cons]
    rw [ih h']
    omega

/-- In a duplicate-free list, `AppearsAfter` yields a strict position
inequality. -/
theorem appearsAfter_posIn {l : List String} {u v : String}
    (hnd : l.Nodup) (h : AppearsAfter l u v) :
    v ∈ l ∧ posIn l u < posIn l v := by
  obtain ⟨l₁, l₂, hl, hv⟩ := h
  subst hl
  have hnd2 := hnd
  rw [List.nodup_append] at hnd2
  obtain ⟨hnd1, hndc, hdisj⟩ := hnd2
  have hu1 : u ∉ l₁ := fun hm => hdisj hm (by simp)
  have hv1 : v ∉ l₁ := fun hm => hdisj hm (by simp [hv])
  have hvu : v ≠ u := by
    intro he
    subst he
    exact (List.nodup_cons.mp hndc).1 hv
  constructor
  · exact List.mem_append.mpr (Or.inr (List.mem_cons_of_mem _ hv))
  · rw [posIn_append_of_not_mem hu1, posIn_append_of_not_mem hv1]
    have hne : ¬ (u = v) := fun he => hvu he.symm
    have e1 : posIn (u :: l₂) u = 0 := by simp [posIn]
    have e2 : posIn (u :: l₂) v = posIn l₂ v + 1 := by
      simp only [posIn, if_neg hne]
    rw [e1, e2]
    omega

/-! ### Invariants of the second pass -/

theorem fp_sorted_iff (g : Graph) (x : String) :
    x ∈ (firstPass g).sorted ↔ x ∈ (firstPass g).visited :=
  (firstPass_props g).2.1.1 x

theorem fp_nodup (g : Graph) : (firstPass g).sorted.Nodup :=
  (firstPass_props g).2.1.2.1

theorem fp_closure {g : Graph} {u v : String} (hu : u ∈ (firstPass g).visited)
    (hv : v ∈ depsOf g u) : v ∈ (firstPass g).visited := by
  rcases (firstPass_props g).2.1.2.2.1 u hu v hv with h | h
  · exact h
  · rw [(firstPass_props g).1] at h
    exact absurd h (by simp)

/-- The order fact of the first pass, positionally: a dependency of a visited,
unmarked node sits strictly later in `sorted`. -/
theorem fp_pos {g : Graph} {u v : String} (hu : u ∈ (firstPass g).visited)
    (hucy : u ∉ (firstPass g).cycles) (hv : v ∈ depsOf g u) :
    v ∈ (firstPass g).visited ∧
    posIn (firstPass g).sorted u < posIn (firstPass g).sorted v := by
  have := appearsAfter_posIn (fp_nodup g)
    ((firstPass_props g).2.1.2.2.2 u hu hucy v hv)
  exact ⟨(fp_sorted_iff g v).mp this.1, this.2⟩

/-- `finalSorted` and `processed` always hold the same elements. -/
def MemInv (s : ProcSt) : Prop := ∀ x, x ∈ s.finalSorted ↔ x ∈ s.processed

theorem processNode_succ_mem {g : Graph} {cy : List String} {fuel : Nat}
    {node : String} {s : ProcSt} (h : node ∈ s.processed) :
    processNode g cy (fuel + 1) node s = s := by
  simp [processNode, h]

theorem processNode_succ {g : Graph} {cy : List String} {fuel : Nat}
    {node : String} {s : ProcSt} (h : node ∉ s.processed) :
    processNode g cy (fuel + 1) node s =
      (fun s2 : ProcSt => ⟨s2.finalSorted ++ [node], node :: s2.processed⟩)
      ((depsOf g node).foldl
        (fun acc dep =>
          if dep ∈ cy then
            if dep ∈ acc.processed then acc
            else ⟨acc.finalSorted ++ [dep], dep :: acc.processed⟩
          else acc)
        ((depsOf g node).foldl
          (fun acc dep =>
            if dep ∈ cy then acc else processNode g cy fuel dep acc) s)) := by
  simp [processNode, h]

/-- The cyclic-dependency fold of `processNode`: pushes each not-yet-processed
cyclic dependency once. -/
theorem cyclicFold_spec (cy : List String) :
    ∀ (deps : List String) (s : ProcSt),
    ∃ Δ, (deps.foldl
        (fun acc dep =>
          if dep ∈ cy then
            if dep ∈ acc.processed then acc
            else ⟨acc.finalSorted ++ [dep], dep :: acc.processed⟩
          else acc) s).finalSorted = s.finalSorted ++ Δ ∧
      (∀ x, x ∈ (deps.foldl
        (fun acc dep =>
          if dep ∈ cy then
            if dep ∈ acc.processed then acc
            else ⟨acc.finalSorted ++ [dep], dep :: acc.processed⟩
          else acc) s).processed ↔ x ∈ s.processed ∨ x ∈ Δ) ∧
      Δ.Nodup ∧
      (∀ x, x ∈ Δ → x ∉ s.processed) ∧
      (∀ x, x ∈ Δ → x ∈ cy ∧ x ∈ deps) ∧
      (MemInv s → MemInv (deps.foldl
        (fun acc dep =>
          if dep ∈ cy then
            if dep ∈ acc.processed then acc
            else ⟨acc.finalSorted ++ [dep], dep :: acc.processed⟩
          else acc) s)) := by
  intro deps
  induction deps with
  | nil =>
    intro s
    exact ⟨[], by simp, by simp, List.nodup_nil, by simp, by simp, fun h => h⟩
  | cons d rest ih =>
    intro s
    rw [List.foldl_cons]
    by_cases hd : d ∈ cy
    · by_cases hp : d ∈ s.processed
      · rw [if_pos hd, if_pos hp]
        obtain ⟨Δ, e1, e2, e3, e4, e5, e6⟩ := ih s
        exact ⟨Δ, e1, e2, e3, e4,
          fun x hx => ⟨(e5 x hx).1, List.mem_cons_of_mem _ (e5 x hx).2⟩, e6⟩
      · rw [if_pos hd, if_neg hp]
        obtain ⟨Δ, e1, e2, e3, e4, e5, e6⟩ :=
          ih ⟨s.finalSorted ++ [d], d :: s.processed⟩
        refine ⟨d :: Δ, ?_, ?_, ?_, ?_, ?_, ?_⟩
        · rw [e1]; simp
        · intro x
          rw [e2 x]
          constructor
          · rintro (h | h)
            · rcases List.mem_cons.mp h with rfl | h'
              · exact Or.inr (by simp)
              · exact Or.inl h'
            · exact Or.inr (List.mem_cons_of_mem _ h)
          · rintro (h | h)
            · exact Or.inl (List.mem_cons_of_mem _ h)
            · rcases List.mem_cons.mp h with rfl | h'
              · exact Or.inl (by simp)
              · exact Or.inr h'
        · refine List.nodup_cons.mpr ⟨?_, e3⟩
          intro hmem
          exact (e4 d hmem) (by simp)
        · intro x hx
          rcases List.mem_cons.mp hx with rfl | hx'
          · exact hp
          · intro hxs
            exact (e4 x hx') (List.mem_cons_of_mem _ hxs)
        · intro x hx
          rcases List.mem_cons.mp hx with rfl | hx'
          · exact ⟨hd, by simp⟩
          · exact ⟨(e5 x hx').1, List.mem_cons_of_mem _ (e5 x hx').2⟩
        · intro hmi
          refine e6 ?_
          intro x
          constructor
          · intro hx
            rcases List.mem_append.mp hx with h | h
            · exact List.mem_cons_of_mem _ ((hmi x).mp h)
            · simp at h
              exact h ▸ (by simp)
          · intro hx
            rcases List.mem_cons.mp hx with rfl | h'
            · simp
            · exact List.mem_append.mpr (Or.inl ((hmi x).mpr h'))
    · rw [if_neg hd]
      obtain ⟨Δ, e1, e2, e3, e4, e5, e6⟩ := ih s
      exact ⟨Δ, e1, e2, e3, e4,
        fun x hx => ⟨(e5 x hx).1, List.mem_cons_of_mem _ (e5 x hx).2⟩, e6⟩

/-- The non-cyclic-dependency fold of `processNode`, as a named function for
the proofs below (definitionally the fold in `processNode`). -/
def foldNC (g : Graph) (cy : List String) (fuel : Nat) (l : List String)
    (t : ProcSt) : ProcSt :=
  l.foldl (fun acc dep => if dep ∈ cy then acc else processNode g cy fuel dep acc) t

/-- The cyclic-dependency fold of `processNode`, as a named function. -/
def foldCY (cy : List String) (deps : List String) (s : ProcSt) : ProcSt :=
  deps.foldl
    (fun acc dep =>
      if dep ∈ cy then
        if dep ∈ acc.processed then acc
        else ⟨acc.finalSorted ++ [dep], dep :: acc.processed⟩
      else acc) s

theorem processNode_succ_folds {g : Graph} {cy : List String} {fuel : Nat}
    {node : String} {s : ProcSt} (h : node ∉ s.processed) :
    processNode g cy (fuel + 1) node s =
      ⟨(foldCY cy (depsOf g node) (foldNC g cy fuel (depsOf g node) s)).finalSorted
          ++ [node],
        node :: (foldCY cy (depsOf g node) (foldNC g cy fuel (depsOf g node) s)).processed⟩ := by
  rw [processNode_succ h]; rfl

theorem foldNC_nil {g : Graph} {cy : List String} {fuel : Nat} {t : ProcSt} :
    foldNC g cy fuel [] t = t := rfl

theorem foldNC_cons {g : Graph} {cy : List String} {fuel : Nat} {d : String}
    {l : List String} {t : ProcSt} :
    foldNC g cy fuel (d :: l) t =
      foldNC g cy fuel l (if d ∈ cy then t else processNode g cy fuel d t) := rfl

theorem foldCY_spec (cy : List String) (deps : List String) (s : ProcSt) :
    ∃ Δ, (foldCY cy deps s).finalSorted = s.finalSorted ++ Δ ∧
      (∀ x, x ∈ (foldCY cy deps s).processed ↔ x ∈ s.processed ∨ x ∈ Δ) ∧
      Δ.Nodup ∧
      (∀ x, x ∈ Δ → x ∉ s.processed) ∧
      (∀ x, x ∈ Δ → x ∈ cy ∧ x ∈ deps) ∧
      (MemInv s → MemInv (foldCY cy deps s)) :=
  cyclicFold_spec cy deps s

/-- Main specification of `processNode` on a node that the first pass did not
mark as a cycle participant: the call appends a fresh duplicate-free block,
every appended name is visited and either cycle-marked or placed no earlier
than `node` in the first-pass order, and `node` ends up processed. -/
theorem processNode_spec (g : Graph) :
    ∀ (fuel : Nat) (node : String) (s : ProcSt),
      node ∈ (firstPass g).visited →
      node ∉ (firstPass g).cycles →
      (firstPass g).sorted.length ≤ fuel + posIn (firstPass g).sorted node →
      MemInv s →
      ∃ Δ, (processNode g (firstPass g).cycles fuel node s).finalSorted
            = s.finalSorted ++ Δ ∧
        (∀ x, x ∈ (processNode g (firstPass g).cycles fuel node s).processed ↔
          x ∈ s.processed ∨ x ∈ Δ) ∧
        Δ.Nodup ∧
        (∀ x, x ∈ Δ → x ∉ s.processed) ∧
        (∀ x, x ∈ Δ → x ∈ (firstPass g).visited ∧
          (x ∈ (firstPass g).cycles ∨
            posIn (firstPass g).sorted node ≤ posIn (firstPass g).sorted x)) ∧
        node ∈ (processNode g (firstPass g).cycles fuel node s).processed ∧
        MemInv (processNode g (firstPass g).cycles fuel node s) := by
  intro fuel
  induction fuel with
  | zero =>
    intro node s hvis _ hlen _
    have := posIn_lt_length ((fp_sorted_iff g node).mpr hvis)
    omega
  | succ fuel ih =>
    intro node s hvis hcy hlen hmi
    by_cases hp : node ∈ s.processed
    · rw [processNode_succ_mem hp]
      exact ⟨[], by simp, by simp, List.nodup_nil, by simp, by simp, hp, hmi⟩
    · rw [processNode_succ_folds hp]
      have foldA : ∀ (l : List String), (∀ d, d ∈ l → d ∈ depsOf g node) →
          ∀ t : ProcSt, MemInv t →
          ∃ Δ, (foldNC g (firstPass g).cycles fuel l t).finalSorted
              = t.finalSorted ++ Δ ∧
            (∀ x, x ∈ (foldNC g (firstPass g).cycles fuel l t).processed ↔
              x ∈ t.processed ∨ x ∈ Δ) ∧
            Δ.Nodup ∧
            (∀ x, x ∈ Δ → x ∉ t.processed) ∧
            (∀ x, x ∈ Δ → x ∈ (firstPass g).visited ∧
              (x ∈ (firstPass g).cycles ∨
                posIn (firstPass g).sorted node < posIn (firstPass g).sorted x)) ∧
            MemInv (foldNC g (firstPass g).cycles fuel l t) := by
        intro l
        induction l with
        | nil =>
          intro _ t hmit
          exact ⟨[], by simp [foldNC_nil], by simp [foldNC_nil], List.nodup_nil,
            by simp, by simp, by rw [foldNC_nil]; exact hmit⟩
        | cons d rest ihl =>
          intro hdl t hmit
          rw [foldNC_cons]
          by_cases hdcy : d ∈ (firstPass g).cycles
          · rw [if_pos hdcy]
            exact ihl (fun x hx => hdl x (List.mem_cons_of_mem _ hx)) t hmit
          · rw [if_neg hdcy]
            have hdd : d ∈ depsOf g node := hdl d (by simp)
            obtain ⟨hdvis, hdpos⟩ := fp_pos hvis hcy hdd
            have hdlen : (firstPass g).sorted.length ≤
                fuel + posIn (firstPass g).sorted d := by omega
            obtain ⟨Δd, d1, d2, d3, d4, d5, d6, d7⟩ := ih d t hdvis hdcy hdlen hmit
            obtain ⟨Δr, r1, r2, r3, r4, r5, r6⟩ :=
              ihl (fun x hx => hdl x (List.mem_cons_of_mem _ hx))
                (processNode g (firstPass g).cycles fuel d t) d7
            refine ⟨Δd ++ Δr, ?_, ?_, ?_, ?_, ?_, r6⟩
            · rw [r1, d1, List.append_assoc]
            · intro x
              rw [r2 x, d2 x]
              constructor
              · rintro ((h | h) | h)
                · exact Or.inl h
                · exact Or.inr (List.mem_append.mpr (Or.inl h))
                · exact Or.inr (List.mem_append.mpr (Or.inr h))
              · rintro (h | h)
                · exact Or.inl (Or.inl h)
                · rcases List.mem_append.mp h with h' | h'
                  · exact Or.inl (Or.inr h')
                  · exact Or.inr h'
            · refine List.Nodup.append d3 r3 ?_
              intro x hxd hxr
              exact (r4 x hxr) ((d2 x).mpr (Or.inr hxd))
            · intro x hx
              rcases List.mem_append.mp hx with h | h
              · exact d4 x h
              · intro hxs
                exact (r4 x h) ((d2 x).mpr (Or.inl hxs))
            · intro x hx
              rcases List.mem_append.mp hx with h | h
              · refine ⟨(d5 x h).1, ?_⟩
                rcases (d5 x h).2 with h' | h'
                · exact Or.inl h'
                · exact Or.inr (by omega)
              · exact r5 x h
      obtain ⟨Δ1, a1, a2, a3, a4, a5, a6⟩ :=
        foldA (depsOf g node) (fun d hd => hd) s hmi
      obtain ⟨Δ2, b1, b2, b3, b4, b5, b6⟩ :=
        foldCY_spec (firstPass g).cycles (depsOf g node)
          (foldNC g (firstPass g).cycles fuel (depsOf g node) s)
      refine ⟨Δ1 ++ Δ2 ++ [node], ?_, ?_, ?_, ?_, ?_, ?_, ?_⟩
      · show (foldCY _ _ _).finalSorted ++ [node] = _
        rw [b1, a1]
        simp [List.append_assoc]
      · intro x
        show x ∈ node :: (foldCY _ _ _).processed ↔ _
        rw [List.mem_cons, b2 x, a2 x]
        constructor
        · rintro (rfl | (h | h) | h)
          · exact Or.inr (by simp)
          · exact Or.inl h
          · exact Or.inr (by simp [h])
          · exact Or.inr (by simp [h])
        · rintro (h | h)
          · exact Or.inr (Or.inl (Or.inl h))
          · rcases List.mem_append.mp h with h' | h'
            · rcases List.mem_append.mp h' with h'' | h''
              · exact Or.inr (Or.inl (Or.inr h''))
              · exact Or.inr (Or.inr h'')
            · simp at h'
              exact Or.inl h'
      · have hn1 : node ∉ Δ1 := by
          intro hmem
          rcases (a5 node hmem).2 with h | h
          · exact hcy h
          · omega
        have hn2 : node ∉ Δ2 := by
          intro hmem
          exact hcy (b5 node hmem).1
        have h12 : ∀ x, x ∈ Δ1 → x ∉ Δ2 := by
          intro x hx1 hx2
          exact (b4 x hx2) ((a2 x).mpr (Or.inr hx1))
        refine List.Nodup.append (List.Nodup.append a3 b3 h12) (List.nodup_cons.mpr ⟨by simp, List.nodup_nil⟩) ?_
        intro x hx hxn
        simp at hxn
        subst hxn
        rcases List.mem_append.mp hx with h | h
        · exact hn1 h
        · exact hn2 h
      · intro x hx
        rcases List.mem_append.mp hx with h | h
        · rcases List.mem_append.mp h with h' | h'
          · exact a4 x h'
          · intro hxs
            exact (b4 x h') ((a2 x).mpr (Or.inl hxs))
        · simp at h
          subst h
          exact hp
      · intro x hx
        rcases List.mem_append.mp hx with h | h
        · rcases List.mem_append.mp h with h' | h'
          · refine ⟨(a5 x h').1, ?_⟩
            rcases (a5 x h').2 with h'' | h''
            · exact Or.inl h''
            · exact Or.inr (by omega)
          · exact ⟨fp_closure hvis (b5 x h').2, Or.inl (b5 x h').1⟩
        · simp at h
          subst h
          exact ⟨hvis, Or.inr (by omega)⟩
      · show node ∈ node :: _
        simp
      · intro x
        show x ∈ (foldCY _ _ _).finalSorted ++ [node] ↔ x ∈ node :: (foldCY _ _ _).processed
        have hmif : MemInv (foldCY (firstPass g).cycles (depsOf g node)
            (foldNC g (firstPass g).cycles fuel (depsOf g node) s)) := b6 a6
        simp only [List.mem_append, List.mem_cons, List.mem_singleton, hmif x]
        tauto

/-- The non-cyclic fold of a top-level frame (fuel `sorted.length`), for an
arbitrary frame node: appends a fresh duplicate-free block of visited nodes. -/
theorem foldNC_top_spec (g : Graph) (node : String)
    (hvis : node ∈ (firstPass g).visited) :
    ∀ (l : List String), (∀ d, d ∈ l → d ∈ depsOf g node) →
    ∀ t : ProcSt, MemInv t →
    ∃ Δ, (foldNC g (firstPass g).cycles (firstPass g).sorted.length l t).finalSorted
        = t.finalSorted ++ Δ ∧
      (∀ x, x ∈ (foldNC g (firstPass g).cycles (firstPass g).sorted.length l t).processed ↔
        x ∈ t.processed ∨ x ∈ Δ) ∧
      Δ.Nodup ∧
      (∀ x, x ∈ Δ → x ∉ t.processed) ∧
      (∀ x, x ∈ Δ → x ∈ (firstPass g).visited) ∧
      MemInv (foldNC g (firstPass g).cycles (firstPass g).sorted.length l t) := by
  intro l
  induction l with
  | nil =>
    intro _ t hmit
    exact ⟨[], by simp [foldNC_nil], by simp [foldNC_nil], List.nodup_nil,
      by simp, by simp, by rw [foldNC_nil]; exact hmit⟩
  | cons d rest ihl =>
    intro hdl t hmit
    rw [foldNC_cons]
    by_cases hdcy : d ∈ (firstPass g).cycles
    · rw [if_pos hdcy]
      exact ihl (fun x hx => hdl x (List.mem_cons_of_mem _ hx)) t hmit
    · rw [if_neg hdcy]
      have hdd : d ∈ depsOf g node := hdl d (by simp)
      have hdvis : d ∈ (firstPass g).visited := fp_closure hvis hdd
      have hdlen : (firstPass g).sorted.length ≤
          (firstPass g).sorted.length + posIn (firstPass g).sorted d := by omega
      obtain ⟨Δd, d1, d2, d3, d4, d5, d6, d7⟩ :=
        processNode_spec g (firstPass g).sorted.length d t hdvis hdcy hdlen hmit
      obtain ⟨Δr, r1, r2, r3, r4, r5, r6⟩ :=
        ihl (fun x hx => hdl x (List.mem_cons_of_mem _ hx))
          (processNode g (firstPass g).cycles (firstPass g).sorted.length d t) d7
      refine ⟨Δd ++ Δr, ?_, ?_, ?_, ?_, ?_, r6⟩
      · rw [r1, d1, List.append_assoc]
      · intro x
        rw [r2 x, d2 x]
        constructor
        · rintro ((h | h) | h)
          · exact Or.inl h
          · exact Or.inr (List.mem_append.mpr (Or.inl h))
          · exact Or.inr (List.mem_append.mpr (Or.inr h))
        · rintro (h | h)
          · exact Or.inl (Or.inl h)
          · rcases List.mem_append.mp h with h' | h'
            · exact Or.inl (Or.inr h')
            · exact Or.inr h'
      · refine List.Nodup.append d3 r3 ?_
        intro x hxd hxr
        exact (r4 x hxr) ((d2 x).mpr (Or.inr hxd))
      · intro x hx
        rcases List.mem_append.mp hx with h | h
        · exact d4 x h
        · intro hxs
          exact (r4 x h) ((d2 x).mpr (Or.inl hxs))
      · intro x hx
        rcases List.mem_append.mp hx with h | h
        · exact (d5 x h).1
        · exact r5 x h

/-- Global invariant of the second pass output: everything emitted is a
visited node; names not marked as cycle participants appear at most once;
nothing appears more than twice. -/
def GInv (g : Graph) (s : ProcSt) : Prop :=
  (∀ x, x ∈ s.finalSorted → x ∈ (firstPass g).visited) ∧
  (∀ x, x ∉ (firstPass g).cycles → List.count x s.finalSorted ≤ 1) ∧
  (∀ x, List.count x s.finalSorted ≤ 2)

/-- A top-level frame of the second pass (fuel `sorted.length + 1`) preserves
the invariants and processes its node. -/
theorem processNodeTop_spec (g : Graph) :
    ∀ (node : String) (s : ProcSt), node ∈ (firstPass g).visited →
    MemInv s → GInv g s →
    MemInv (processNode g (firstPass g).cycles (firstPass g).sorted.length.succ node s) ∧
    GInv g (processNode g (firstPass g).cycles (firstPass g).sorted.length.succ node s) ∧
    node ∈ (processNode g (firstPass g).cycles (firstPass g).sorted.length.succ node s).processed ∧
    (∀ x, x ∈ s.processed →
      x ∈ (processNode g (firstPass g).cycles (firstPass g).sorted.length.succ node s).processed) := by
  intro node s hvis hmi hgi
  by_cases hp : node ∈ s.processed
  · rw [processNode_succ_mem hp]
    exact ⟨hmi, hgi, hp, fun x hx => hx⟩
  · have main : ∃ Δ,
        (processNode g (firstPass g).cycles (firstPass g).sorted.length.succ node s).finalSorted
          = s.finalSorted ++ Δ ∧
        (∀ x, x ∈ (processNode g (firstPass g).cycles (firstPass g).sorted.length.succ node s).processed ↔
          x ∈ s.processed ∨ x ∈ Δ) ∧
        (∀ x, x ∈ Δ → x ∉ s.processed) ∧
        (∀ x, x ∈ Δ → x ∈ (firstPass g).visited) ∧
        (∀ x, List.count x Δ ≤ 2) ∧
        (∀ x, x ∉ (firstPass g).cycles → List.count x Δ ≤ 1) ∧
        node ∈ (processNode g (firstPass g).cycles (firstPass g).sorted.length.succ node s).processed ∧
        MemInv (processNode g (firstPass g).cycles (firstPass g).sorted.length.succ node s) := by
      by_cases hcy : node ∈ (firstPass g).cycles
      · -- a cycle-marked frame node: walk the frame directly
        rw [processNode_succ_folds hp]
        obtain ⟨Δ1, a1, a2, a3, a4, a5, a6⟩ :=
          foldNC_top_spec g node hvis (depsOf g node) (fun d hd => hd) s hmi
        obtain ⟨Δ2, b1, b2, b3, b4, b5, b6⟩ :=
          foldCY_spec (firstPass g).cycles (depsOf g node)
            (foldNC g (firstPass g).cycles (firstPass g).sorted.length (depsOf g node) s)
        have h12 : ∀ x, x ∈ Δ1 → x ∉ Δ2 := by
          intro x hx1 hx2
          exact (b4 x hx2) ((a2 x).mpr (Or.inr hx1))
        have hfresh : ∀ x, x ∈ Δ1 ++ Δ2 ++ [node] → x ∉ s.processed := by
          intro x hx
          rcases List.mem_append.mp hx with h | h
          · rcases List.mem_append.mp h with h' | h'
            · exact a4 x h'
            · intro hxs
              exact (b4 x h') ((a2 x).mpr (Or.inl hxs))
          · simp at h
            subst h
            exact hp
        refine ⟨Δ1 ++ Δ2 ++ [node], ?_, ?_, hfresh, ?_, ?_, ?_, by simp, ?_⟩
        · show (foldCY _ _ _).finalSorted ++ [node] = _
          rw [b1, a1]
          simp [List.append_assoc]
        · intro x
          show x ∈ node :: (foldCY _ _ _).processed ↔ _
          rw [List.mem_cons, b2 x, a2 x]
          constructor
          · rintro (rfl | (h | h) | h)
            · exact Or.inr (by simp)
            · exact Or.inl h
            · exact Or.inr (by simp [h])
            · exact Or.inr (by simp [h])
          · rintro (h | h)
            · exact Or.inr (Or.inl (Or.inl h))
            · rcases List.mem_append.mp h with h' | h'
              · rcases List.mem_append.mp h' with h'' | h''
                · exact Or.inr (Or.inl (Or.inr h''))
                · exact Or.inr (Or.inr h'')
              · simp at h'
                exact Or.inl h'
        · intro x hx
          rcases List.mem_append.mp hx with h | h
          · rcases List.mem_append.mp h with h' | h'
            · exact a5 x h'
            · exact fp_closure hvis (b5 x h').2
          · simp at h
            subst h
            exact hvis
        · intro x
          rw [List.count_append, List.count_append]
          have c1 : List.count x Δ1 ≤ 1 := List.nodup_iff_count_le_one.mp a3 x
          have c2 : List.count x Δ2 ≤ 1 := List.nodup_iff_count_le_one.mp b3 x
          have c3 : List.count x [node] ≤ 1 := by
            have := List.count_le_length x [node]
            simpa using this
          have cdisj : List.count x Δ1 = 0 ∨ List.count x Δ2 = 0 := by
            by_cases h1 : x ∈ Δ1
            · exact Or.inr (List.count_eq_zero.mpr (h12 x h1))
            · exact Or.inl (List.count_eq_zero.mpr h1)
          omega
        · intro x hxcy
          rw [List.count_append, List.count_append]
          have c1 : List.count x Δ1 ≤ 1 := List.nodup_iff_count_le_one.mp a3 x
          have c2 : List.count x Δ2 = 0 := by
            refine List.count_eq_zero.mpr ?_
            intro hmem
            exact hxcy (b5 x hmem).1
          have c3 : List.count x [node] = 0 := by
            refine List.count_eq_zero.mpr ?_
            intro hmem
            simp at hmem
            subst hmem
            exact hxcy hcy
          omega
        · intro x
          show x ∈ (foldCY _ _ _).finalSorted ++ [node] ↔ x ∈ node :: (foldCY _ _ _).processed
          have hmif : MemInv (foldCY (firstPass g).cycles (depsOf g node)
              (foldNC g (firstPass g).cycles (firstPass g).sorted.length (depsOf g node) s)) :=
            b6 a6
          simp only [List.mem_append, List.mem_cons, List.mem_singleton, hmif x]
          tauto
      · -- an unmarked frame node: directly by the main specification
        have hlen : (firstPass g).sorted.length ≤
            (firstPass g).sorted.length.succ + posIn (firstPass g).sorted node := by omega
        obtain ⟨Δ, d1, d2, d3, d4, d5, d6, d7⟩ :=
          processNode_spec g (firstPass g).sorted.length.succ node s hvis hcy hlen hmi
        refine ⟨Δ, d1, d2, d4, fun x hx => (d5 x hx).1, ?_, ?_, d6, d7⟩
        · intro x
          have := List.nodup_iff_count_le_one.mp d3 x
          omega
        · intro x _
          exact List.nodup_iff_count_le_one.mp d3 x
    obtain ⟨Δ, m1, m2, m3, m4, m5, m6, m7, m8⟩ := main
    refine ⟨m8, ⟨?_, ?_, ?_⟩, m7, ?_⟩
    · intro x hx
      rw [m1] at hx
      rcases List.mem_append.mp hx with h | h
      · exact hgi.1 x h
      · exact m4 x h
    · intro x hxcy
      rw [m1, List.count_append]
      by_cases hxd : x ∈ Δ
      · have h0 : List.count x s.finalSorted = 0 :=
          List.count_eq_zero.mpr (fun hm => (m3 x hxd) ((hmi x).mp hm))
        have := m6 x hxcy
        omega
      · have h0 : List.count x Δ = 0 := List.count_eq_zero.mpr hxd
        have := hgi.2.1 x hxcy
        omega
    · intro x
      rw [m1, List.count_append]
      by_cases hxd : x ∈ Δ
      · have h0 : List.count x s.finalSorted = 0 :=
          List.count_eq_zero.mpr (fun hm => (m3 x hxd) ((hmi x).mp hm))
        have := m5 x
        omega
      · have h0 : List.count x Δ = 0 := List.count_eq_zero.mpr hxd
        have := hgi.2.2 x
        omega
    · intro x hx
      exact (m2 x).mpr (Or.inl hx)

/-- The accumulated facts about the full sorter output. -/
theorem sorter_facts (g : Graph) :
    (∀ k, k ∈ keysOf g → k ∈ sortSchemasByDependency g) ∧
    (∀ x, x ∈ sortSchemasByDependency g → x ∈ keysOf g ∨ x ∈ depsUnion g) ∧
    (∀ x, x ∉ cycleMarks g → List.count x (sortSchemasByDependency g) ≤ 1) ∧
    (∀ x, List.count x (sortSchemasByDependency g) ≤ 2) := by
  have hfold : ∀ (l : List String), (∀ k, k ∈ l → k ∈ (firstPass g).visited) →
      ∀ t : ProcSt, MemInv t → GInv g t →
      MemInv (l.foldl (fun acc node =>
          processNode g (firstPass g).cycles (firstPass g).sorted.length.succ node acc) t) ∧
      GInv g (l.foldl (fun acc node =>
          processNode g (firstPass g).cycles (firstPass g).sorted.length.succ node acc) t) ∧
      (∀ x, x ∈ t.processed → x ∈ (l.foldl (fun acc node =>
          processNode g (firstPass g).cycles (firstPass g).sorted.length.succ node acc) t).processed) ∧
      (∀ k, k ∈ l → k ∈ (l.foldl (fun acc node =>
          processNode g (firstPass g).cycles (firstPass g).sorted.length.succ node acc) t).processed) := by
    intro l
    induction l with
    | nil =>
      intro _ t hmi hgi
      exact ⟨hmi, hgi, fun x hx => hx, fun k hk => absurd hk (by simp)⟩
    | cons a rest ihl =>
      intro hvl t hmi hgi
      rw [List.foldl_cons]
      obtain ⟨s1, s2, s3, s4⟩ := processNodeTop_spec g a t (hvl a (by simp)) hmi hgi
      obtain ⟨r1, r2, r3, r4⟩ :=
        ihl (fun k hk => hvl k (List.mem_cons_of_mem _ hk)) _ s1 s2
      refine ⟨r1, r2, fun x hx => r3 x (s4 x hx), ?_⟩
      intro k hk
      rcases List.mem_cons.mp hk with rfl | hk'
      · exact r3 k s3
      · exact r4 k hk'
  have hstart : MemInv (⟨[], []⟩ : ProcSt) ∧ GInv g ⟨[], []⟩ := by
    refine ⟨fun x => by simp, fun x hx => by simp at hx, fun x => by simp, fun x => by simp⟩
  obtain ⟨f1, f2, _, f4⟩ := hfold (firstPass g).sorted
    (fun k hk => (fp_sorted_iff g k).mp hk) ⟨[], []⟩ hstart.1 hstart.2
  have hout : sortSchemasByDependency g =
      ((firstPass g).sorted.foldl (fun acc node =>
        processNode g (firstPass g).cycles (firstPass g).sorted.length.succ node acc)
        ⟨[], []⟩).finalSorted := rfl
  refine ⟨?_, ?_, ?_, ?_⟩
  · intro k hk
    have hkv : k ∈ (firstPass g).visited := (firstPass_props g).2.2.1 k hk
    have hkL : k ∈ (firstPass g).sorted := (fp_sorted_iff g k).mpr hkv
    rw [hout]
    exact (f1 k).mpr (f4 k hkL)
  · intro x hx
    rw [hout] at hx
    exact (firstPass_props g).2.2.2 x (f2.1 x hx)
  · intro x hx
    rw [hout]
    exact f2.2.1 x hx
  · intro x
    rw [hout]
    exact f2.2.2 x

/-! ### The ordering guarantee of the second pass -/

/-- `a` occurs exactly once in `l`, with `b` somewhere before it. -/
def OP (a b : String) (l : List String) : Prop :=
  ∃ l₁ l₂, l = l₁ ++ a :: l₂ ∧ b ∈ l₁ ∧ a ∉ l₁ ∧ a ∉ l₂

theorem op_append_block {a b : String} {l Δ : List String}
    (h : OP a b l) (hΔ : a ∉ Δ) : OP a b (l ++ Δ) := by
  obtain ⟨l₁, l₂, hl, hb, ha1, ha2⟩ := h
  refine ⟨l₁, l₂ ++ Δ, by rw [hl]; simp, hb, ha1, ?_⟩
  intro hmem
  rcases List.mem_append.mp hmem with h' | h'
  · exact ha2 h'
  · exact hΔ h'

theorem posIn_append_left_lt {l₁ : List String} {x : String} (h : x ∈ l₁)
    (l₂ : List String) : posIn (l₁ ++ l₂) x < l₁.length := by
  induction l₁ with
  | nil => exact absurd h (by simp)
  | cons c l ih =>
    by_cases hcx : c = x
    · simp [posIn, hcx]
    · rcases List.mem_cons.mp h with h' | h'
      · exact absurd h'.symm hcx
      · show posIn (c :: (l ++ l₂)) x < (c :: l).length
        simp only [posIn, if_neg hcx, List.length_cons]
        exact Nat.succ_lt_succ (ih h')

theorem op_posIn {a b : String} {out : List String} (h : OP a b out) :
    posIn out b < posIn out a := by
  obtain ⟨l₁, l₂, hl, hb, ha1, _⟩ := h
  subst hl
  have hpa : posIn (l₁ ++ a :: l₂) a = l₁.length := by
    rw [posIn_append_of_not_mem ha1]
    simp [posIn]
  have hpb := posIn_append_left_lt hb (a :: l₂)
  omega

/-- Order invariant for a fixed edge `a → b`: once `a` is processed, the
output places (the unique occurrence of) `a` after an occurrence of `b`. -/
def OInv (a b : String) (s : ProcSt) : Prop := a ∈ s.processed → OP a b s.finalSorted

theorem oinv_foldCY {g : Graph} {a b : String} (hacy : a ∉ (firstPass g).cycles)
    {deps : List String} {s : ProcSt}
    (h : OInv a b s) : OInv a b (foldCY (firstPass g).cycles deps s) := by
  obtain ⟨Δ, e1, e2, _, _, e5, _⟩ := foldCY_spec (firstPass g).cycles deps s
  intro hp
  have haΔ : a ∉ Δ := fun hm => hacy (e5 a hm).1
  rcases (e2 a).mp hp with h' | h'
  · rw [e1]
    exact op_append_block (h h') haΔ
  · exact absurd h' haΔ

/-- The order invariant is preserved by any `processNode` call on an unmarked
node (given enough fuel). -/
theorem processNode_order (g : Graph) (a b : String)
    (hacy : a ∉ (firstPass g).cycles) (hbcy : b ∉ (firstPass g).cycles)
    (hedge : b ∈ depsOf g a) :
    ∀ (fuel : Nat) (node : String) (s : ProcSt),
      node ∈ (firstPass g).visited → node ∉ (firstPass g).cycles →
      (firstPass g).sorted.length ≤ fuel + posIn (firstPass g).sorted node →
      MemInv s → OInv a b s →
      OInv a b (processNode g (firstPass g).cycles fuel node s) := by
  intro fuel
  induction fuel with
  | zero =>
    intro node s hvis _ hlen _ _
    have := posIn_lt_length ((fp_sorted_iff g node).mpr hvis)
    omega
  | succ fuel ih =>
    intro node s hvis hcy hlen hmi hoi
    by_cases hp : node ∈ s.processed
    · rw [processNode_succ_mem hp]
      exact hoi
    · rw [processNode_succ_folds hp]
      have foldO : ∀ (l : List String), (∀ d, d ∈ l → d ∈ depsOf g node) →
          ∀ t : ProcSt, MemInv t → OInv a b t →
          MemInv (foldNC g (firstPass g).cycles fuel l t) ∧
          OInv a b (foldNC g (firstPass g).cycles fuel l t) ∧
          (∀ x, x ∈ t.processed → x ∈ (foldNC g (firstPass g).cycles fuel l t).processed) ∧
          (∀ d, d ∈ l → d ∉ (firstPass g).cycles →
            d ∈ (foldNC g (firstPass g).cycles fuel l t).processed) ∧
          (∀ x, x ∈ (foldNC g (firstPass g).cycles fuel l t).processed →
            x ∈ t.processed ∨ (x ∈ (firstPass g).cycles ∨
              posIn (firstPass g).sorted node < posIn (firstPass g).sorted x)) := by
        intro l
        induction l with
        | nil =>
          intro _ t hmit hoit
          exact ⟨by rw [foldNC_nil]; exact hmit, by rw [foldNC_nil]; exact hoit,
            fun x hx => hx, fun d hd => absurd hd (by simp),
            fun x hx => Or.inl hx⟩
        | cons d rest ihl =>
          intro hdl t hmit hoit
          rw [foldNC_cons]
          by_cases hdcy : d ∈ (firstPass g).cycles
          · rw [if_pos hdcy]
            obtain ⟨q1, q2, q3, q4, q5⟩ :=
              ihl (fun x hx => hdl x (List.mem_cons_of_mem _ hx)) t hmit hoit
            refine ⟨q1, q2, q3, ?_, q5⟩
            intro e he hecy
            rcases List.mem_cons.mp he with rfl | he'
            · exact absurd hdcy hecy
            · exact q4 e he' hecy
          · rw [if_neg hdcy]
            have hdd : d ∈ depsOf g node := hdl d (by simp)
            obtain ⟨hdvis, hdpos⟩ := fp_pos hvis hcy hdd
            have hdlen : (firstPass g).sorted.length ≤
                fuel + posIn (firstPass g).sorted d := by omega
            obtain ⟨Δd, d1, d2, d3, d4, d5, d6, d7⟩ :=
              processNode_spec g fuel d t hdvis hdcy hdlen hmit
            have hdo : OInv a b (processNode g (firstPass g).cycles fuel d t) :=
              ih d t hdvis hdcy hdlen hmit hoit
            obtain ⟨q1, q2, q3, q4, q5⟩ :=
              ihl (fun x hx => hdl x (List.mem_cons_of_mem _ hx)) _ d7 hdo
            refine ⟨q1, q2, fun x hx => q3 x ((d2 x).mpr (Or.inl hx)), ?_, ?_⟩
            · intro e he _
              rcases List.mem_cons.mp he with rfl | he'
              · exact q3 e d6
              · exact q4 e he' (by assumption)
            · intro x hx
              rcases q5 x hx with h' | h'
              · rcases (d2 x).mp h' with h'' | h''
                · exact Or.inl h''
                · refine Or.inr ?_
                  rcases (d5 x h'').2 with h3 | h3
                  · exact Or.inl h3
                  · exact Or.inr (by omega)
              · exact Or.inr h'
      obtain ⟨f1, f2, f3, f4, f5⟩ := foldO (depsOf g node) (fun d hd => hd) s hmi hoi
      have hcymi : MemInv (foldCY (firstPass g).cycles (depsOf g node)
          (foldNC g (firstPass g).cycles fuel (depsOf g node) s)) := by
        obtain ⟨_, _, _, _, _, _, e6⟩ := foldCY_spec (firstPass g).cycles (depsOf g node)
          (foldNC g (firstPass g).cycles fuel (depsOf g node) s)
        exact e6 f1
      have hcyo : OInv a b (foldCY (firstPass g).cycles (depsOf g node)
          (foldNC g (firstPass g).cycles fuel (depsOf g node) s)) :=
        oinv_foldCY hacy f2
      by_cases hna : node = a
      · subst hna
        intro _
        -- the frame of `a` itself establishes the order property
        have hbproc : b ∈ (foldNC g (firstPass g).cycles fuel (depsOf g node) s).processed :=
          f4 b hedge hbcy
        obtain ⟨Δ2, e1, e2, _, _, e5, _⟩ := foldCY_spec (firstPass g).cycles (depsOf g node)
          (foldNC g (firstPass g).cycles fuel (depsOf g node) s)
        have hbp2 : b ∈ (foldCY (firstPass g).cycles (depsOf g node)
            (foldNC g (firstPass g).cycles fuel (depsOf g node) s)).processed :=
          (e2 b).mpr (Or.inl hbproc)
        have hbfin : b ∈ (foldCY (firstPass g).cycles (depsOf g node)
            (foldNC g (firstPass g).cycles fuel (depsOf g node) s)).finalSorted :=
          (hcymi b).mpr hbp2
        have hap1 : node ∉ (foldNC g (firstPass g).cycles fuel (depsOf g node) s).processed := by
          intro hmem
          rcases f5 node hmem with h' | h' | h'
          · exact hp h'
          · exact hcy h'
          · omega
        have hap2 : node ∉ (foldCY (firstPass g).cycles (depsOf g node)
            (foldNC g (firstPass g).cycles fuel (depsOf g node) s)).processed := by
          intro hmem
          rcases (e2 node).mp hmem with h' | h'
          · exact hap1 h'
          · exact hcy (e5 node h').1
        have hafin : node ∉ (foldCY (firstPass g).cycles (depsOf g node)
            (foldNC g (firstPass g).cycles fuel (depsOf g node) s)).finalSorted :=
          fun hm => hap2 ((hcymi node).mp hm)
        exact ⟨_, [], rfl, hbfin, hafin, by simp⟩
      · intro hap
        have hap' : a ∈ (foldCY (firstPass g).cycles (depsOf g node)
            (foldNC g (firstPass g).cycles fuel (depsOf g node) s)).processed := by
          rcases List.mem_cons.mp hap with h' | h'
          · exact absurd h'.symm hna
          · exact h'
        have := hcyo hap'
        exact op_append_block this (by simpa using Ne.symm hna)

/-- The order invariant is preserved by every top-level frame. -/
theorem processNodeTop_order (g : Graph) (a b : String)
    (hacy : a ∉ (firstPass g).cycles) (hbcy : b ∉ (firstPass g).cycles)
    (hedge : b ∈ depsOf g a) :
    ∀ (node : String) (s : ProcSt), node ∈ (firstPass g).visited →
      MemInv s → OInv a b s →
      OInv a b (processNode g (firstPass g).cycles
        (firstPass g).sorted.length.succ node s) := by
  intro node s hvis hmi hoi
  by_cases hcy : node ∈ (firstPass g).cycles
  · by_cases hp : node ∈ s.processed
    · rw [processNode_succ_mem hp]
      exact hoi
    · rw [processNode_succ_folds hp]
      have foldOT : ∀ (l : List String), (∀ d, d ∈ l → d ∈ depsOf g node) →
          ∀ t : ProcSt, MemInv t → OInv a b t →
          MemInv (foldNC g (firstPass g).cycles (firstPass g).sorted.length l t) ∧
          OInv a b (foldNC g (firstPass g).cycles (firstPass g).sorted.length l t) := by
        intro l
        induction l with
        | nil =>
          intro _ t hmit hoit
          exact ⟨by rw [foldNC_nil]; exact hmit, by rw [foldNC_nil]; exact hoit⟩
        | cons d rest ihl =>
          intro hdl t hmit hoit
          rw [foldNC_cons]
          by_cases hdcy : d ∈ (firstPass g).cycles
          · rw [if_pos hdcy]
            exact ihl (fun x hx => hdl x (List.mem_cons_of_mem _ hx)) t hmit hoit
          · rw [if_neg hdcy]
            have hdd : d ∈ depsOf g node := hdl d (by simp)
            have hdvis : d ∈ (firstPass g).visited := fp_closure hvis hdd
            have hdlen : (firstPass g).sorted.length ≤
                (firstPass g).sorted.length + posIn (firstPass g).sorted d := by omega
            obtain ⟨_, _, _, _, _, _, _, d7⟩ :=
              processNode_spec g (firstPass g).sorted.length d t hdvis hdcy hdlen hmit
            have hdo := processNode_order g a b hacy hbcy hedge
              (firstPass g).sorted.length d t hdvis hdcy hdlen hmit hoit
            exact ihl (fun x hx => hdl x (List.mem_cons_of_mem _ hx)) _ d7 hdo
      obtain ⟨f1, f2⟩ := foldOT (depsOf g node) (fun d hd => hd) s hmi hoi
      have hcyo : OInv a b (foldCY (firstPass g).cycles (depsOf g node)
          (foldNC g (firstPass g).cycles (firstPass g).sorted.length (depsOf g node) s)) :=
        oinv_foldCY hacy f2
      intro hap
      have hna : node ≠ a := fun he => hacy (he ▸ hcy)
      have hap' : a ∈ (foldCY (firstPass g).cycles (depsOf g node)
          (foldNC g (firstPass g).cycles (firstPass g).sorted.length (depsOf g node) s)).processed := by
        rcases List.mem_cons.mp hap with h' | h'
        · exact absurd h'.symm hna
        · exact h'
      exact op_append_block (hcyo hap') (by simpa using Ne.symm hna)
  · have hlen : (firstPass g).sorted.length ≤
        (firstPass g).sorted.length.succ + posIn (firstPass g).sorted node := by omega
    exact processNode_order g a b hacy hbcy hedge
      (firstPass g).sorted.length.succ node s hvis hcy hlen hmi hoi

theorem depsOf_mem_keys {g : Graph} {u v : String} (h : v ∈ depsOf g u) :
    u ∈ keysOf g := by
  unfold depsOf at h
  cases hf : g.find? (fun p => p.1 == u) with
  | none => rw [hf] at h; simp at h
  | some p =>
    have hp : p ∈ g := List.mem_of_find?_eq_some hf
    have heq : p.1 = u := by
      have := List.find?_some hf
      simpa using this
    exact heq ▸ List.mem_map.mpr ⟨p, hp, rfl⟩

/-- The ordering guarantee that the sorter actually provides: for an edge
`a → b` where neither endpoint was marked as a cycle participant by the
first pass, `b`'s (first) position strictly precedes `a`'s. -/
theorem sorter_order (g : Graph) (a b : String)
    (hedge : b ∈ depsOf g a)
    (hacy : a ∉ cycleMarks g) (hbcy : b ∉ cycleMarks g) :
    posIn (sortSchemasByDependency g) b < posIn (sortSchemasByDependency g) a := by
  have havis : a ∈ (firstPass g).visited :=
    (firstPass_props g).2.2.1 a (depsOf_mem_keys hedge)
  have hfold : ∀ (l : List String), (∀ k, k ∈ l → k ∈ (firstPass g).visited) →
      ∀ t : ProcSt, MemInv t → GInv g t → OInv a b t →
      MemInv (l.foldl (fun acc node =>
          processNode g (firstPass g).cycles (firstPass g).sorted.length.succ node acc) t) ∧
      OInv a b (l.foldl (fun acc node =>
          processNode g (firstPass g).cycles (firstPass g).sorted.length.succ node acc) t) ∧
      GInv g (l.foldl (fun acc node =>
          processNode g (firstPass g).cycles (firstPass g).sorted.length.succ node acc) t) ∧
      (∀ k, k ∈ l → k ∈ (l.foldl (fun acc node =>
          processNode g (firstPass g).cycles (firstPass g).sorted.length.succ node acc) t).processed) ∧
      (∀ x, x ∈ t.processed → x ∈ (l.foldl (fun acc node =>
          processNode g (firstPass g).cycles (firstPass g).sorted.length.succ node acc) t).processed) := by
    intro l
    induction l with
    | nil =>
      intro _ t hmi hgi hoi
      exact ⟨hmi, hoi, hgi, fun k hk => absurd hk (by simp), fun x hx => hx⟩
    | cons c rest ihl =>
      intro hvl t hmi hgi hoi
      rw [List.foldl_cons]
      obtain ⟨s1, s2, s3, s4⟩ := processNodeTop_spec g c t (hvl c (by simp)) hmi hgi
      have so : OInv a b (processNode g (firstPass g).cycles
          (firstPass g).sorted.length.succ c t) :=
        processNodeTop_order g a b hacy hbcy hedge c t (hvl c (by simp)) hmi hoi
      obtain ⟨r1, r2, r3, r4, r5⟩ :=
        ihl (fun k hk => hvl k (List.mem_cons_of_mem _ hk)) _ s1 s2 so
      refine ⟨r1, r2, r3, ?_, fun x hx => r5 x (s4 x hx)⟩
      intro k hk
      rcases List.mem_cons.mp hk with rfl | hk'
      · exact r5 k s3
      · exact r4 k hk'
  have hstart : MemInv (⟨[], []⟩ : ProcSt) ∧ GInv g ⟨[], []⟩ ∧ OInv a b ⟨[], []⟩ := by
    refine ⟨fun x => by simp, ⟨fun x hx => by simp at hx, fun x => by simp, fun x => by simp⟩,
      fun h => by simp at h⟩
  obtain ⟨f1, f2, _, f4, _⟩ := hfold (firstPass g).sorted
    (fun k hk => (fp_sorted_iff g k).mp hk) ⟨[], []⟩ hstart.1 hstart.2.1 hstart.2.2
  have haL : a ∈ (firstPass g).sorted := (fp_sorted_iff g a).mpr havis
  have hap : a ∈ ((firstPass g).sorted.foldl (fun acc node =>
      processNode g (firstPass g).cycles (firstPass g).sorted.length.succ node acc)
      ⟨[], []⟩).processed := f4 a haL
  have hop := f2 hap
  exact op_posIn hop

/-! ### The OpenAPI document model (`openapi-types.ts`)

`OpenAPISchema` is embedded as a nested inductive.  Fields of the TypeScript
interface that no code path of the generator ever reads (`nullable`, `oneOf`,
`anyOf`, `description`) are omitted.  Enumeration values (`enum?: any[]`) are
modelled as strings: every claim under verification concerns string-valued
enumerations, and all inspected code paths treat values via
`typeof v === 'string'`. -/

inductive JSchema where
  | mk
    (type? : Option String)
    (format? : Option String)
    (enum? : Option (List String))
    (minimum? : Option Int)
    (maximum? : Option Int)
    (minLength? : Option Int)
    (maxLength? : Option Int)
    (pattern? : Option String)
    (properties? : Option (List (String × JSchema)))
    (items? : Option JSchema)
    (required? : Option (List String))
    (allOf? : Option (List JSchema))
    (ref? : Option String)
    (title? : Option String)

def JSchema.type? : JSchema → Option String
  | .mk a _ _ _ _ _ _ _ _ _ _ _ _ _ => a

def JSchema.format? : JSchema → Option String
  | .mk _ a _ _ _ _ _ _ _ _ _ _ _ _ => a

def JSchema.enum? : JSchema → Option (List String)
  | .mk _ _ a _ _ _ _ _ _ _ _ _ _ _ => a

def JSchema.minimum? : JSchema → Option Int
  | .mk _ _ _ a _ _ _ _ _ _ _ _ _ _ => a

def JSchema.maximum? : JSchema → Option Int
  | .mk _ _ _ _ a _ _ _ _ _ _ _ _ _ => a

def JSchema.minLength? : JSchema → Option Int
  | .mk _ _ _ _ _ a _ _ _ _ _ _ _ _ => a

def JSchema.maxLength? : JSchema → Option Int
  | .mk _ _ _ _ _ _ a _ _ _ _ _ _ _ => a

def JSchema.pattern? : JSchema → Option String
  | .mk _ _ _ _ _ _ _ a _ _ _ _ _ _ => a

def JSchema.properties? : JSchema → Option (List (String × JSchema))
  | .mk _ _ _ _ _ _ _ _ a _ _ _ _ _ => a

def JSchema.items? : JSchema → Option JSchema
  | .mk _ _ _ _ _ _ _ _ _ a _ _ _ _ => a

def JSchema.required? : JSchema → Option (List String)
  | .mk _ _ _ _ _ _ _ _ _ _ a _ _ _ => a

def JSchema.allOf? : JSchema → Option (List JSchema)
  | .mk _ _ _ _ _ _ _ _ _ _ _ a _ _ => a

def JSchema.ref? : JSchema → Option String
  | .mk _ _ _ _ _ _ _ _ _ _ _ _ a _ => a

def JSchema.title? : JSchema → Option String
  | .mk _ _ _ _ _ _ _ _ _ _ _ _ _ a => a

/-- The schema with every field absent. -/
def schema0 : JSchema :=
  .mk none none none none none none none none none none none none none none

def withType (t : String) : JSchema → JSchema
  | .mk _ b c d e f g h i j k l m n => .mk (some t) b c d e f g h i j k l m n

def withFormat (t : String) : JSchema → JSchema
  | .mk a _ c d e f g h i j k l m n => .mk a (some t) c d e f g h i j k l m n

def withEnumOpt (v : Option (List String)) : JSchema → JSchema
  | .mk a b _ d e f g h i j k l m n => .mk a b v d e f g h i j k l m n

def withEnum (v : List String) (s : JSchema) : JSchema := withEnumOpt (some v) s

def withProps (v : List (String × JSchema)) : JSchema → JSchema
  | .mk a b c d e f g h _ j k l m n => .mk a b c d e f g h (some v) j k l m n

def withItems (v : JSchema) : JSchema → JSchema
  | .mk a b c d e f g h i _ k l m n => .mk a b c d e f g h i (some v) k l m n

def withRequired (v : List String) : JSchema → JSchema
  | .mk a b c d e f g h i j _ l m n => .mk a b c d e f g h i j (some v) l m n

def withAllOf (v : List JSchema) : JSchema → JSchema
  | .mk a b c d e f g h i j k _ m n => .mk a b c d e f g h i j k (some v) m n

def withRef (v : String) : JSchema → JSchema
  | .mk a b c d e f g h i j k l _ n => .mk a b c d e f g h i j k l (some v) n

def withTitle (v : String) : JSchema → JSchema
  | .mk a b c d e f g h i j k l m _ => .mk a b c d e f g h i j k l m (some v)

/-- `{ schema: OpenAPISchema }` of a content-type entry (the runtime checks
for its absence, hence an `Option`). -/
structure RespContent where
  schema : Option JSchema

structure OpenAPIResponse where
  content : Option (List (String × RespContent))

/-- `operationId` is required by the TypeScript interface but the runtime
re-checks its truthiness, so the embedding keeps it optional. -/
structure OpenAPIOperation where
  operationId : Option String
  responses : List (String × OpenAPIResponse)

/-- A path item as `Object.entries` iterates it: present method fields in key
order. -/
abbrev OpenAPIPathItem := List (String × OpenAPIOperation)

/-- The document; `schemas?` stands for `components?.schemas` (the source
only ever reads the two through optional chaining together). -/
structure OpenAPIDocument where
  paths : List (String × OpenAPIPathItem)
  schemas? : Option (List (String × JSchema))

def lookupStr {α : Type} (m : List (String × α)) (k : String) : Option α :=
  (m.find? (fun p => p.1 == k)).map (·.2)

/-- Fuel for the recursions over schema structure; ample for every document
considered in this development. -/
def genFuel : Nat := 1000

/-- `'#/components/schemas/'` -/
def schemasRefHead : String := "#/components/schemas/"

def stripSchemaRef (r : String) : String := jsReplaceOnce r schemasRefHead ""

/-- `Set.add` keeping insertion order. -/
def addOnce (l : List String) (x : String) : List String :=
  if x ∈ l then l else l ++ [x]

/-! ### `schema-dependency.ts`: graph building and helpers -/

/-- `processSchema` inside `getSchemaRefs`: collect `$ref` targets through
`$ref`, `allOf`, `properties` and `items`, in traversal order. -/
def processSchemaRefs : Nat → JSchema → List String → List String
  | 0, _, acc => acc
  | fuel+1, s, acc =>
    let acc1 := match s.ref? with
      | some r =>
        if jsStartsWith r schemasRefHead then addOnce acc (stripSchemaRef r) else acc
      | none => acc
    let acc2 := match s.allOf? with
      | some l => l.foldl (fun a sub => processSchemaRefs fuel sub a) acc1
      | none => acc1
    let acc3 := match s.properties? with
      | some props => props.foldl (fun a p => processSchemaRefs fuel p.2 a) acc2
      | none => acc2
    match s.items? with
    | some it => processSchemaRefs fuel it acc3
    | none => acc3

def getSchemaRefs (fuel : Nat) (s : JSchema) : List String := processSchemaRefs fuel s []

/-- `getParentClasses`: the direct `$ref` plus the `allOf` member `$ref`s. -/
def getParentClasses (s : JSchema) : List String :=
  (match s.ref? with
   | some r => if jsStartsWith r schemasRefHead then [stripSchemaRef r] else []
   | none => []) ++
  (match s.allOf? with
   | some l =>
     l.foldl (fun acc sub =>
       match sub.ref? with
       | some r =>
         if jsStartsWith r schemasRefHead then acc ++ [stripSchemaRef r] else acc
       | none => acc) []
   | none => [])

/-- `buildSchemaDependencyGraph`: one entry per declared schema; each entry's
set is `new Set([...refs, ...parents])` (insertion-ordered, first occurrence
kept).  The initialisation pass with empty sets is subsumed because `Map.set`
on an existing key replaces the value in place. -/
def buildSchemaDependencyGraph (doc : OpenAPIDocument) : Graph :=
  (doc.schemas?.getD []).map
    (fun p => (p.1, (getParentClasses p.2).foldl addOnce (getSchemaRefs genFuel p.2)))

/-- `resolveRef`: `null` unless the reference has the supported shape and the
target is declared; a primitive or enumeration target is returned as a copy
with the original schema name attached as `title`. -/
def resolveRef (ref : String) (doc : OpenAPIDocument) : Option JSchema :=
  if ¬ jsStartsWith ref schemasRefHead then none
  else
    let schemaName := stripSchemaRef ref
    match lookupStr (doc.schemas?.getD []) schemaName with
    | some schema =>
      if schema.type? = some "string" ∨ schema.type? = some "number" ∨
         schema.type? = some "integer" ∨ schema.type? = some "boolean" ∨
         (schema.enum?).isSome then
        some (withTitle schemaName schema)
      else
        some schema
    | none => none

/-- `isEnumSchema` -/
def isEnumSchema (s : JSchema) : Bool :=
  decide (s.type? = some "string") &&
    match s.enum? with
    | some vs => decide (0 < vs.length)
    | none => false

/-- `getEnums`: the top-level named enumeration schemas, in declaration
order. -/
def getEnums (doc : OpenAPIDocument) : List (String × List String) :=
  (doc.schemas?.getD []).foldl
    (fun acc p =>
      if isEnumSchema p.2 then acc ++ [(p.1, (p.2.enum?).getD [])] else acc) []

/-- `getNonParentProperties` (exported by `schema-dependency.ts` but never
invoked by the generator). -/
def getNonParentProperties (s : JSchema) (doc : OpenAPIDocument) : JSchema :=
  match s.allOf? with
  | none => s
  | some members =>
    let parentProps := members.foldl
      (fun acc sub =>
        match sub.ref? with
        | some r =>
          match resolveRef r doc with
          | some refSchema =>
            match refSchema.properties? with
            | some ps => ps.foldl (fun a p => addOnce a p.1) acc
            | none => acc
          | none => acc
        | none => acc) []
    let ownProperties := match members.getLast? with
      | some last => (last.properties?).getD []
      | none => []
    withProps (ownProperties.filter (fun p => decide (¬ p.1 ∈ parentProps)))
      (withType "object" schema0)

/-! ### True cycle participation, from the specification's glossary -/

/-- One saturation step of forward reachability. -/
def stepReach (g : Graph) (s : List String) : List String :=
  (s ++ (s.map (depsOf g)).flatten).dedup

def reachN (g : Graph) : Nat → List String → List String
  | 0, s => s
  | n+1, s => reachN g n (stepReach g s)

/-- Modelled from the spec (glossary): "Cycle participant: a schema reachable
from itself via one or more reference edges."  Reachability is saturated by
iterating one-step successors `|allNodes g|` times, which covers every simple
path. -/
def cycleParticipant (g : Graph) (x : String) : Bool :=
  decide (x ∈ reachN g (allNodes g).length (depsOf g x))

/-! ### Claims C1 and C2: the topological sorter -/

/-- A document whose only schema `A` references itself. -/
def docSelfRef : OpenAPIDocument :=
  ⟨[], some [("A", withRef "#/components/schemas/A" schema0)]⟩

/-- A document whose only schema `A` has a property referencing an undeclared
schema `B`. -/
def docDangling : OpenAPIDocument :=
  ⟨[], some [("A",
    withProps [("p", withRef "#/components/schemas/B" schema0)]
      (withType "object" schema0))]⟩

/-- C1, counterexample: the claim "for every input dependency graph over the
document's N declared schema names, `sortSchemasByDependency` returns exactly
N names, each declared name exactly once and no other name" is false.  A
self-referencing schema is emitted twice (N = 1 but the output has length 2),
and a reference to an undeclared schema makes the undeclared name appear in
the output. -/
theorem c1_total_order_counterexample :
    (keysOf (buildSchemaDependencyGraph docSelfRef)).length = 1 ∧
    List.count "A" (sortSchemasByDependency (buildSchemaDependencyGraph docSelfRef)) = 2 ∧
    sortSchemasByDependency (buildSchemaDependencyGraph docDangling) = ["B", "A"] ∧
    ¬ "B" ∈ keysOf (buildSchemaDependencyGraph docDangling) := by
  refine ⟨by decide, by decide, by decide, by decide⟩

/-- C1, amended: for every input dependency graph, the sorter's output
contains every declared schema name at least once; every emitted name is a
declared name or a referenced dependency target; a name not marked as a cycle
participant by the first pass appears exactly once (at most once, and at
least once when declared); and no name ever appears more than twice. -/
theorem c1_total_order_amended (g : Graph) :
    (∀ k, k ∈ keysOf g → k ∈ sortSchemasByDependency g) ∧
    (∀ x, x ∈ sortSchemasByDependency g → x ∈ keysOf g ∨ x ∈ depsUnion g) ∧
    (∀ x, x ∉ cycleMarks g → List.count x (sortSchemasByDependency g) ≤ 1) ∧
    (∀ x, List.count x (sortSchemasByDependency g) ≤ 2) :=
  sorter_facts g

/-- Witness for C1 (amended) at a concrete graph. -/
theorem c1_total_order_amended_witness :
    "Pet" ∈ sortSchemasByDependency [("Pet", []), ("Dog", ["Pet"])] ∧
    List.count "Dog" (sortSchemasByDependency [("Pet", []), ("Dog", ["Pet"])]) ≤ 1 :=
  ⟨(c1_total_order_amended [("Pet", []), ("Dog", ["Pet"])]).1 "Pet" (by decide),
   (c1_total_order_amended [("Pet", []), ("Dog", ["Pet"])]).2.2.1 "Dog" (by decide)⟩

/-- The graph refuting C2 as stated: `a → c` with `c` on no reference cycle,
yet `c` is emitted after `a`. -/
def gC2 : Graph := [("a", ["d", "c"]), ("b", ["a", "b"]), ("c", []), ("d", ["d"])]

/-- C2, counterexample: the claim "for every edge A→B such that B is not a
participant in any reference cycle, B strictly precedes A in the sorted
output" is false: in `gC2` there is an edge `a → c`, `c` participates in no
cycle (and neither does `a`), yet `c` appears after `a` in the output. -/
theorem c2_acyclic_order_counterexample :
    "c" ∈ depsOf gC2 "a" ∧
    cycleParticipant gC2 "c" = false ∧
    cycleParticipant gC2 "a" = false ∧
    ¬ posIn (sortSchemasByDependency gC2) "c" < posIn (sortSchemasByDependency gC2) "a" := by
  refine ⟨by decide, by decide, by decide, by decide⟩

/-- C2, amended: for every dependency graph and edge `a → b` such that
neither `a` nor `b` is marked as a cycle participant by the sorter's first
pass (a marking that can exceed true cycle participation), `b`'s position
strictly precedes `a`'s position in the output. -/
theorem c2_acyclic_order_amended (g : Graph) (a b : String)
    (hedge : b ∈ depsOf g a)
    (ha : a ∉ cycleMarks g) (hb : b ∉ cycleMarks g) :
    posIn (sortSchemasByDependency g) b < posIn (sortSchemasByDependency g) a :=
  sorter_order g a b hedge ha hb

/-- Witness for C2 (amended) at a concrete graph. -/
theorem c2_acyclic_order_amended_witness :
    posIn (sortSchemasByDependency [("x", ["y"]), ("y", [])]) "y" <
    posIn (sortSchemasByDependency [("x", ["y"]), ("y", [])]) "x" :=
  c2_acyclic_order_amended [("x", ["y"]), ("y", [])] "x" "y"
    (by decide) (by decide) (by decide)

/-! ### `openapi-class-generator.ts`: naming utilities and allocators -/

/-- `toPascalCase`: first replace every `[-_]` followed by a lowercase letter
by that letter uppercased (the regex scans left to right), then uppercase a
leading lowercase letter. -/
def pascalBody : List Char → List Char
  | [] => []
  | [c] => [c]
  | d :: c :: rest =>
    if (d = Char.ofNat 45 ∨ d = Char.ofNat 95) ∧ c.isLower then
      chUpper c :: pascalBody rest
    else d :: pascalBody (c :: rest)

def capFirst : List Char → List Char
  | [] => []
  | c :: rest => if c.isLower then chUpper c :: rest else c :: rest

def toPascalCase (s : String) : String := ⟨capFirst (pascalBody s.data)⟩

def isAlnumUnd (c : Char) : Bool :=
  (Char.ofNat 97 ≤ c && c ≤ Char.ofNat 122) ||
  (Char.ofNat 65 ≤ c && c ≤ Char.ofNat 90) ||
  (Char.ofNat 48 ≤ c && c ≤ Char.ofNat 57) || c = Char.ofNat 95

/-- `needsQuotes`: the property name contains a character outside
`[a-zA-Z0-9_]`. -/
def needsQuotes (s : String) : Bool := ¬ s.data.all isAlnumUnd

/-- Decimal rendering of a natural number (what a JS template literal prints
for a non-negative integer); fuel-based, `n + 1` is always enough. -/
def decimalDigits : Nat → Nat → List Char
  | 0, _ => []
  | f+1, n =>
    if n < 10 then [Nat.digitChar n]
    else decimalDigits f (n / 10) ++ [Nat.digitChar (n % 10)]

def natLit (n : Nat) : String := ⟨decimalDigits (n + 1) n⟩

def intLit (m : Int) : String :=
  if m < 0 then "-" ++ natLit m.natAbs else natLit m.natAbs

/-- The name-allocator state shared by the generator: the module-level
`schemaToClassName` cache, the `usedNames` set, the `usedEnums` map, the
`classMap`, and the oracle stream feeding `Math.random().toString(36)`
fallback tokens. -/
structure NameSt where
  cache : List (String × String)
  used : List String
  usedEnums : List (String × List String)
  classMap : List (String × String)
  toks : List String
deriving DecidableEq

def popTok : List String → String × List String
  | [] => ("q1w2e3", [])
  | t :: ts => (t, ts)

/-- The `for (const suffix of suffixes)` ladder over a used-name set. -/
def trySuffixes (base : String) (used : List String) : List String → Option String
  | [] => none
  | sfx :: rest =>
    if ¬ (base ++ sfx) ∈ used then some (base ++ sfx) else trySuffixes base used rest

/-- `getClassNameFromOperationId`: no cache — every call walks the ladder
against `usedNames` and registers the returned name. -/
def getClassNameFromOperationId (operationId statusCode : String) (st : NameSt) :
    String × NameSt :=
  let baseClassName := toPascalCase operationId ++ statusCode ++ "Response"
  if ¬ baseClassName ∈ st.used then
    (baseClassName, { st with used := st.used ++ [baseClassName] })
  else
    match trySuffixes baseClassName st.used
        ["Detail", "Extended", "Full", "Complete", "Info"] with
    | some n => (n, { st with used := st.used ++ [n] })
    | none =>
      let (t, toks) := popTok st.toks
      let n := baseClassName ++ "_" ++ t
      (n, { st with
        used := st.used ++ [n]
        toks := toks })

/-- `getClassNameFromSchemaName`: cache lookup first, then the exact name,
the PascalCase form, the suffix ladder, and the random fallback; every
allocation is recorded in both the cache and `usedNames`. -/
def getClassNameFromSchemaName (schemaName : String) (st : NameSt) :
    String × NameSt :=
  match lookupStr st.cache schemaName with
  | some c => (c, st)
  | none =>
    if ¬ schemaName ∈ st.used then
      (schemaName, { st with
        used := st.used ++ [schemaName]
        cache := st.cache ++ [(schemaName, schemaName)] })
    else
      let pascalName := toPascalCase schemaName
      if ¬ pascalName ∈ st.used then
        (pascalName, { st with
          used := st.used ++ [pascalName]
          cache := st.cache ++ [(schemaName, pascalName)] })
      else
        match trySuffixes pascalName st.used
            ["Model", "Type", "Entity", "Object", "Data"] with
        | some n => (n, { st with
            used := st.used ++ [n]
            cache := st.cache ++ [(schemaName, n)] })
        | none =>
          let (t, toks) := popTok st.toks
          let n := pascalName ++ "_" ++ t
          (n, { st with
            used := st.used ++ [n]
            cache := st.cache ++ [(schemaName, n)]
            toks := toks })

/-- The scan of `usedEnums` inside `getEnumNameFromProperty`: each visited
entry's stored array is sorted in place (`existingValues.sort()`), and the
scan stops at the first entry whose sorted values equal the canonical key
(`JSON.stringify` equality of string arrays is list equality). -/
def scanEnums (key : List String) : List (String × List String) →
    Option String × List (String × List String)
  | [] => (none, [])
  | (n, vs) :: rest =>
    let svs := jsSortStrings vs
    if svs = key then (some n, (n, svs) :: rest)
    else
      let (r, rest') := scanEnums key rest
      (r, (n, svs) :: rest')

def tryEnumSuffixes (base : String) (used : List (String × List String)) :
    List String → Option String
  | [] => none
  | sfx :: rest =>
    if lookupStr used (base ++ sfx) = none then some (base ++ sfx)
    else tryEnumSuffixes base used rest

/-- `getEnumNameFromProperty`.  Returns the enum name, the new state, and the
sorted value array — the call sorts the caller's `enumValues` array in place
(`enumValues.sort()`), so the returned sorted array is what the caller's
`schema.enum` holds afterwards. -/
def getEnumNameFromProperty (propertyName : String) (enumValues : List String)
    (context : String) (st : NameSt) : String × NameSt × List String :=
  let sortedVals := jsSortStrings enumValues
  match scanEnums sortedVals st.usedEnums with
  | (some n, ue) => (n, { st with usedEnums := ue }, sortedVals)
  | (none, ue) =>
    let baseName :=
      if jsLower propertyName = "currency" then "Currency"
      else if jsLower propertyName = "status" then toPascalCase context ++ "Status"
      else toPascalCase context ++ toPascalCase propertyName
    if lookupStr ue baseName = none then
      (baseName, { st with usedEnums := ue ++ [(baseName, sortedVals)] }, sortedVals)
    else
      match tryEnumSuffixes baseName ue
          ["Type", "Enum", "Values", "Options", "List"] with
      | some n => (n, { st with usedEnums := ue ++ [(n, sortedVals)] }, sortedVals)
      | none =>
        let (t, toks) := popTok st.toks
        let n := baseName ++ "_" ++ t
        (n, { st with
          usedEnums := ue ++ [(n, sortedVals)]
          toks := toks }, sortedVals)

/-- `generateDecorators`: the name-heuristic chain short-circuits, otherwise
decorators derive from the declared type and its constraints. -/
def generateDecorators (schema : JSchema) (propertyName : String)
    (isRequired : Bool) : List String :=
  let base := if ¬ isRequired then ["@IsOptional()"] else []
  let lower := jsLower propertyName
  if lower = "latitude" then base ++ ["@IsLatitude()"]
  else if lower = "longitude" then base ++ ["@IsLongitude()"]
  else if lower = "email" ∨ jsIncludes lower "email" then base ++ ["@IsEmail()"]
  else if lower = "creditcard" ∨ jsIncludes lower "credit_card" ∨
      jsIncludes lower "creditcard" then base ++ ["@IsCreditCard()"]
  else if lower = "phone" ∨ jsIncludes lower "phone" then base ++ ["@IsPhoneNumber()"]
  else if lower = "postalcode" ∨ jsIncludes lower "postal_code" ∨
      jsIncludes lower "zip" then base ++ ["@IsPostalCode()"]
  else if lower = "uuid" ∨ jsIncludes lower "uuid" then base ++ ["@IsUUID()"]
  else if lower = "url" ∨ jsIncludes lower "url" then base ++ ["@IsUrl()"]
  else if lower = "ip" ∨ jsIncludes lower "ip_address" then base ++ ["@IsIP()"]
  else if lower = "mongodb" ∨ jsIncludes lower "mongo_id" ∨ lower = "objectid" then
    base ++ ["@IsMongoId()"]
  else if schema.type? = some "string" then
    if schema.format? = some "date" ∨ schema.format? = some "date-time" then
      base ++ ["@IsDate()",
        "@Transform((\x7b value \x7d) => value ? new Date(value) : value)"]
    else
      let d1 := base ++ ["@IsString()"]
      let d2 := match schema.minLength? with
        | some n => d1 ++ ["@MinLength(" ++ intLit n ++ ")"]
        | none => d1
      let d3 := match schema.maxLength? with
        | some n => d2 ++ ["@MaxLength(" ++ intLit n ++ ")"]
        | none => d2
      let d4 := match schema.pattern? with
        | some p => if p = "" then d3 else d3 ++ ["@Matches(/" ++ p ++ "/)"]
        | none => d3
      match schema.format? with
      | some "email" => d4 ++ ["@IsEmail()"]
      | some "uri" => d4 ++ ["@IsUrl()"]
      | some "url" => d4 ++ ["@IsUrl()"]
      | some "uuid" => d4 ++ ["@IsUUID()"]
      | some "ipv4" => d4 ++ ["@IsIP()"]
      | some "ipv6" => d4 ++ ["@IsIP()"]
      | _ => d4
  else if schema.type? = some "number" ∨ schema.type? = some "integer" then
    let d1 := base ++
      (if schema.type? = some "integer" then ["@IsInt()"] else ["@IsNumber()"])
    let d2 := match schema.minimum? with
      | some m => if m = 0 then d1 ++ ["@IsPositive()"]
          else d1 ++ ["@Min(" ++ intLit m ++ ")"]
      | none => d1
    match schema.maximum? with
    | some m => if m = 0 then d2 ++ ["@IsNegative()"]
        else d2 ++ ["@Max(" ++ intLit m ++ ")"]
    | none => d2
  else if schema.type? = some "boolean" then base ++ ["@IsBoolean()"]
  else if schema.type? = some "array" ∧ (schema.items?).isSome then
    base ++ ["@IsArray()", "@ValidateNested(\x7b each: true \x7d)",
      "@Type(() => PLACEHOLDER)"]
  else if schema.type? = some "object" ∨ (schema.properties?).isSome then
    base ++ ["@IsObject()", "@ValidateNested()", "@Type(() => PLACEHOLDER)"]
  else base

/-! ### Generated output structures

The source emits strings; the embedding keeps them structured.  A property
records the formatted name, the optional marker, the emitted type and the
decorator list; a class records its name, its ` extends ` clause and its
properties (the source classifies nested classes by testing the rendered
string for `' extends '`, which corresponds to `parent.isSome` here); an
enum declaration is determined by its name and its value list (member keys
are derived from the values). -/

structure GenProp where
  name : String
  optional : Bool
  type : String
  decorators : List String
deriving DecidableEq

structure GenClass where
  name : String
  parent : Option String
  props : List GenProp
deriving DecidableEq

structure GenEnum where
  name : String
  values : List String
deriving DecidableEq

/-- Member key derivation: non-alphanumerics replaced by `_`, uppercased. -/
def enumKeyOf (v : String) : String :=
  ⟨(v.data.map (fun c => if isAlnumUnd c then c else Char.ofNat 95)).map chUpper⟩

def enumMembersOf (vs : List String) : List (String × String) :=
  vs.map (fun v => (enumKeyOf v, v))

/-- `decorators.splice` of the first decorator containing `sub`. -/
def removeFirstContaining (ds : List String) (sub : String) : List String :=
  match ds.findIdx? (fun d => jsIncludes d sub) with
  | some i => ds.eraseIdx i
  | none => ds

/-- Replace `PLACEHOLDER` in the first decorator containing it. -/
def replacePlaceholder (ds : List String) (cls : String) : List String :=
  match ds.findIdx? (fun d => jsIncludes d "PLACEHOLDER") with
  | some i => ds.set i (jsReplaceOnce (ds.getD i "") "PLACEHOLDER" cls)
  | none => ds

/-- The primitive-array fallback block (spelled twice in the source). -/
def arrayPrimFallback (items : JSchema) (decorators : List String) :
    List String × String :=
  let (ds, ty) :=
    if items.type? = some "string" then
      (decorators ++ ["@IsString(\x7b each: true \x7d)"], "string[]")
    else if items.type? = some "number" ∨ items.type? = some "integer" then
      (decorators ++ ["@IsNumber(\x7b\x7d, \x7b each: true \x7d)"], "number[]")
    else if items.type? = some "boolean" then
      (decorators ++ ["@IsBoolean(\x7b each: true \x7d)"], "boolean[]")
    else (decorators, "any[]")
  (removeFirstContaining (removeFirstContaining ds "@ValidateNested") "@Type", ty)

/-- The empty-object fallback block (also spelled twice in the source). -/
def recordFallback (decorators : List String) : List String × String :=
  (removeFirstContaining (removeFirstContaining decorators "@ValidateNested") "@Type",
    "Record<string, any>")

/-- `Object.assign`: existing keys are overwritten in place (keeping their
position), new keys are appended. -/
def upsert {α : Type} (m : List (String × α)) (k : String) (v : α) :
    List (String × α) :=
  if (m.find? (fun p => p.1 == k)).isSome then
    m.map (fun p => if p.1 == k then (p.1, v) else p)
  else m ++ [(k, v)]

def assignProps (base add : List (String × JSchema)) : List (String × JSchema) :=
  add.foldl (fun m p => upsert m p.1 p.2) base

/-- `[...new Set(xs)]` -/
def dedupFirst (l : List String) : List String := l.foldl addOnce []

def dedupFirstD {α : Type} [DecidableEq α] (l : List α) : List α :=
  l.foldl (fun acc x => if x ∈ acc then acc else acc ++ [x]) []

/-- The while-loop of `generateClassProperty` resolving duplicate property
names: try `p`, then `p1`, `p2`, … until unused.  `used.length + 1` probes
always reach a free candidate (proved below). -/
def uniquePropLoop (p : String) (used : List String) : Nat → Nat → String
  | 0, k => p ++ natLit k
  | f+1, k =>
    if ¬ (p ++ natLit k) ∈ used then p ++ natLit k
    else uniquePropLoop p used f (k + 1)

def uniquePropertyName (p : String) (used : List String) : String :=
  if ¬ p ∈ used then p else uniquePropLoop p used (used.length + 1) 1

/-- `mergeParentProperties` (the source's `usedNames`/`context` parameters
are passed through unused and omitted).  Parent properties merge first, the
schema's own properties and required names overlay last; the merged required
list is deduplicated. -/
def mergeParentProperties : Nat → JSchema → OpenAPIDocument →
    List (String × JSchema) × List String
  | 0, _, _ => ([], [])
  | fuel+1, schema, doc =>
    let step := fun (acc : List (String × JSchema) × List String) (sub : JSchema) =>
      match sub.ref? with
      | some r =>
        match resolveRef r doc with
        | some parentSchema =>
          let pr := mergeParentProperties fuel parentSchema doc
          (assignProps acc.1 pr.1, acc.2 ++ pr.2)
        | none => acc
      | none =>
        (assignProps acc.1 ((sub.properties?).getD []),
          acc.2 ++ (sub.required?).getD [])
    let m := match schema.allOf? with
      | some members => members.foldl step ([], [])
      | none => ([], [])
    (assignProps m.1 ((schema.properties?).getD []),
      dedupFirst (m.2 ++ (schema.required?).getD []))

/-- `getAllParentClasses`: the `allOf` member `$ref` targets, recursively,
deduplicated keeping first occurrences. -/
def getAllParentClasses : Nat → JSchema → OpenAPIDocument → List String
  | 0, _, _ => []
  | fuel+1, schema, doc =>
    let parents := match schema.allOf? with
      | some members =>
        members.foldl (fun acc sub =>
          match sub.ref? with
          | some r =>
            if jsStartsWith r schemasRefHead then
              let parentName := stripSchemaRef r
              let acc1 := acc ++ [parentName]
              match lookupStr (doc.schemas?.getD []) parentName with
              | some parentSchema => acc1 ++ getAllParentClasses fuel parentSchema doc
              | none => acc1
            else acc
          | none => acc) []
      | none => []
    dedupFirst parents

/-- Result of `generateClassProperty`.  `updated` is the property schema
object after the call: the inline-enum branch sorts `schema.enum` in place
through `getEnumNameFromProperty`, and since that array belongs to the
parsed document, `updated ≠` input exhibits the document mutation. -/
structure PropRes where
  prop : GenProp
  nested : List GenClass
  enums : List GenEnum
  updated : JSchema
  usedProps : List String
  st : NameSt

structure PropsRes where
  props : List GenProp
  nested : List GenClass
  enums : List GenEnum
  st : NameSt

mutual

/-- `generateClassProperty` (fuel-bounded; the fuel-0 default emits the
untyped property and is unreachable for the documents considered here). -/
def generateClassProperty : Nat → String → JSchema → List String →
    OpenAPIDocument → List String → String → NameSt → PropRes
  | 0, propertyName, schema, required, _, usedProperties, _, st =>
    ⟨⟨propertyName, ¬ propertyName ∈ required, "any", []⟩, [], [], schema,
      usedProperties, st⟩
  | fuel+1, propertyName, schema, required, doc, usedProperties, context, st =>
    let isRequired := propertyName ∈ required
    let decorators := generateDecorators schema propertyName isRequired
    let usedProperties' := usedProperties ++ [uniquePropertyName propertyName usedProperties]
    let fmt := if needsQuotes propertyName then "\x27" ++ propertyName ++ "\x27"
      else propertyName
    match schema.ref?.bind (fun r => (resolveRef r doc).map (fun rs => (r, rs))) with
    | some (r, refSchema) =>
      let refName := stripSchemaRef r
      let cn := getClassNameFromSchemaName refName st
      let decorators := if (refSchema.enum?).isSome then
        decorators ++ ["@IsEnum(" ++ cn.1 ++ ")"] else decorators
      let decorators := replacePlaceholder decorators cn.1
      ⟨⟨fmt, ¬ isRequired, cn.1, decorators⟩, [], [], schema, usedProperties', cn.2⟩
    | none =>
      if schema.type? = some "string" then
        let propertyType := if schema.format? = some "date" ∨
            schema.format? = some "date-time" then "Date" else "string"
        match schema.enum? with
        | some vs =>
          let en := getEnumNameFromProperty propertyName vs context st
          let decorators := decorators ++ ["@IsEnum(" ++ en.1 ++ ")"]
          ⟨⟨fmt, ¬ isRequired, en.1, decorators⟩, [], [⟨en.1, en.2.2⟩],
            withEnumOpt (some en.2.2) schema, usedProperties', en.2.1⟩
        | none =>
          ⟨⟨fmt, ¬ isRequired, propertyType, decorators⟩, [], [], schema,
            usedProperties', st⟩
      else if schema.type? = some "number" ∨ schema.type? = some "integer" then
        ⟨⟨fmt, ¬ isRequired, "number", decorators⟩, [], [], schema,
          usedProperties', st⟩
      else if schema.type? = some "boolean" then
        ⟨⟨fmt, ¬ isRequired, "boolean", decorators⟩, [], [], schema,
          usedProperties', st⟩
      else if schema.type? = some "array" ∧ (schema.items?).isSome then
        let items := (schema.items?).getD schema0
        let nc := getClassNameFromSchemaName (propertyName ++ "Item") st
        match items.ref?.bind (fun ir => (resolveRef ir doc).map (fun _ => ir)) with
        | some ir =>
          let refName := stripSchemaRef ir
          let rc := getClassNameFromSchemaName refName nc.2
          let decorators := replacePlaceholder decorators rc.1
          ⟨⟨fmt, ¬ isRequired, rc.1 ++ "[]", decorators⟩, [], [], schema,
            usedProperties', rc.2⟩
        | none =>
          match items.properties? with
          | some _ =>
            let pres := generateClassProperties fuel items doc context nc.2
            if 0 < pres.props.length then
              let nestedClass : GenClass := ⟨nc.1, none, pres.props⟩
              let st2 := { pres.st with
                classMap := upsert pres.st.classMap (propertyName ++ ".items") nc.1 }
              let decorators := replacePlaceholder decorators nc.1
              ⟨⟨fmt, ¬ isRequired, nc.1 ++ "[]", decorators⟩,
                pres.nested ++ [nestedClass], pres.enums, schema,
                usedProperties', st2⟩
            else
              let fb := arrayPrimFallback items decorators
              ⟨⟨fmt, ¬ isRequired, fb.2, fb.1⟩, [], [], schema,
                usedProperties', pres.st⟩
          | none =>
            let fb := arrayPrimFallback items decorators
            ⟨⟨fmt, ¬ isRequired, fb.2, fb.1⟩, [], [], schema,
              usedProperties', nc.2⟩
      else if schema.type? = some "object" ∨ (schema.properties?).isSome then
        let nc := getClassNameFromSchemaName (propertyName ++ "Object") st
        match schema.properties? with
        | some _ =>
          let pres := generateClassProperties fuel schema doc context nc.2
          if 0 < pres.props.length then
            let nestedClass : GenClass := ⟨nc.1, none, pres.props⟩
            let st2 := { pres.st with
              classMap := upsert pres.st.classMap propertyName nc.1 }
            let decorators := replacePlaceholder decorators nc.1
            ⟨⟨fmt, ¬ isRequired, nc.1, decorators⟩,
              pres.nested ++ [nestedClass], pres.enums, schema,
              usedProperties', st2⟩
          else
            let fb := recordFallback decorators
            ⟨⟨fmt, ¬ isRequired, fb.2, fb.1⟩, [], [], schema,
              usedProperties', pres.st⟩
        | none =>
          let fb := recordFallback decorators
          ⟨⟨fmt, ¬ isRequired, fb.2, fb.1⟩, [], [], schema,
            usedProperties', nc.2⟩
      else
        ⟨⟨fmt, ¬ isRequired, "any", decorators⟩, [], [], schema,
          usedProperties', st⟩

/-- `generateClassProperties`: merge parent properties, then emit each merged
property with a fresh per-class `usedProperties` set.  The source's `required`
parameter is dead (`mergedRequired || required` always picks the merged
array, which is truthy even when empty) and the `classMap` flows inside the
state. -/
def generateClassProperties : Nat → JSchema → OpenAPIDocument → String →
    NameSt → PropsRes
  | 0, _, _, _, st => ⟨[], [], [], st⟩
  | fuel+1, schema, doc, context, st =>
    let m := mergeParentProperties fuel schema doc
    let r := m.1.foldl
      (fun (acc : List GenProp × List GenClass × List GenEnum × List String × NameSt) p =>
        let pr := generateClassProperty fuel p.1 p.2 m.2 doc acc.2.2.2.1 context
          acc.2.2.2.2
        (acc.1 ++ [pr.prop], acc.2.1 ++ pr.nested, acc.2.2.1 ++ pr.enums,
          pr.usedProps, pr.st))
      ([], [], [], [], st)
    ⟨r.1, r.2.1, r.2.2.1, r.2.2.2.2⟩

end

/-! ### The core of `generateClassesFromOpenAPI` (file I/O excluded) -/

/-- The mutable accumulators of the generation run. -/
structure GenAcc where
  baseClasses : List GenClass
  childClasses : List GenClass
  generatedEnums : List GenEnum
  processedSchemas : List String
  st : NameSt

/-- One step of the additional-parent loop ("multiple inheritance"):
synthesize a `ClassWithParent` auxiliary base class holding the parent's
properties not already collected. -/
def additionalParentStep (fuel : Nat) (doc : OpenAPIDocument) (className : String)
    (acc : GenAcc × List GenProp) (parentName : String) : GenAcc × List GenProp :=
  match lookupStr (doc.schemas?.getD []) parentName with
  | none => acc
  | some parentSchema =>
    let pc := getClassNameFromSchemaName parentName acc.1.st
    let intermediateClassName := className ++ "With" ++ pc.1
    let pres := generateClassProperties fuel parentSchema doc parentName pc.2
    let uniqueProps := pres.props.filter (fun p => decide (¬ p ∈ acc.2))
    let inter := acc.2 ++ uniqueProps
    if 0 < uniqueProps.length then
      ({ acc.1 with
          st := pres.st
          baseClasses := acc.1.baseClasses ++ [⟨intermediateClassName, none, uniqueProps⟩] },
        inter)
    else ({ acc.1 with st := pres.st }, inter)

/-- Processing of one name from the dependency-sorted schema list. -/
def processSchemaEntry (fuel : Nat) (doc : OpenAPIDocument) (acc : GenAcc)
    (schemaName : String) : GenAcc :=
  match lookupStr (doc.schemas?.getD []) schemaName with
  | none => acc
  | some schema =>
    if schemaName ∈ acc.processedSchemas then acc
    else
      let cn := getClassNameFromSchemaName schemaName acc.st
      let pres := generateClassProperties fuel schema doc schemaName cn.2
      if pres.props.length = 0 then { acc with st := pres.st }
      else
        let acc1 : GenAcc := { acc with
          st := pres.st
          generatedEnums := acc.generatedEnums ++ pres.enums }
        let withExt : Option String × GenAcc :=
          if (schema.allOf?).isSome then
            match getAllParentClasses fuel schema doc with
            | [] => (none, acc1)
            | primary :: rest =>
              let pp := getClassNameFromSchemaName primary acc1.st
              let acc2 := { acc1 with st := pp.2 }
              (some pp.1,
                (rest.foldl (additionalParentStep fuel doc cn.1) (acc2, [])).1)
          else (none, acc1)
        let acc3 := withExt.2
        let acc4 := pres.nested.foldl
          (fun a c =>
            if c.parent.isSome then { a with childClasses := a.childClasses ++ [c] }
            else { a with baseClasses := a.baseClasses ++ [c] }) acc3
        let mainClass : GenClass := ⟨cn.1, withExt.1, pres.props⟩
        let acc5 := if withExt.1.isSome then
            { acc4 with childClasses := acc4.childClasses ++ [mainClass] }
          else { acc4 with baseClasses := acc4.baseClasses ++ [mainClass] }
        { acc5 with processedSchemas := schemaName :: acc5.processedSchemas }

/-- Processing of one content-type entry of a 2xx response. -/
def processContent (fuel : Nat) (doc : OpenAPIDocument) (operationId statusCode : String)
    (acc : GenAcc) (entry : String × RespContent) : GenAcc :=
  match entry.2.schema with
  | none => acc
  | some cschema =>
    let cn := getClassNameFromOperationId operationId statusCode acc.st
    let pres := generateClassProperties fuel cschema doc operationId cn.2
    if pres.props.length = 0 then { acc with st := pres.st }
    else
      let acc1 : GenAcc := { acc with
        st := pres.st
        generatedEnums := acc.generatedEnums ++ pres.enums }
      let withExt : Option String × GenAcc :=
        match cschema.allOf? with
        | some members =>
          match members.findSome?
              (fun sub =>
                match sub.ref? with
                | some r =>
                  if jsStartsWith r schemasRefHead then some (stripSchemaRef r)
                  else none
                | none => none) with
          | some parentName =>
            let pc := getClassNameFromSchemaName parentName acc1.st
            (some pc.1, { acc1 with st := pc.2 })
          | none => (none, acc1)
        | none =>
          match cschema.ref? with
          | some r =>
            if jsStartsWith r schemasRefHead then
              let pc := getClassNameFromSchemaName (stripSchemaRef r) acc1.st
              (some pc.1, { acc1 with st := pc.2 })
            else (none, acc1)
          | none => (none, acc1)
      let acc3 := withExt.2
      let acc4 := pres.nested.foldl
        (fun a c =>
          if c.parent.isSome then { a with childClasses := a.childClasses ++ [c] }
          else { a with baseClasses := a.baseClasses ++ [c] }) acc3
      let mainClass : GenClass := ⟨cn.1, withExt.1, pres.props⟩
      if withExt.1.isSome then
        { acc4 with childClasses := acc4.childClasses ++ [mainClass] }
      else { acc4 with baseClasses := acc4.baseClasses ++ [mainClass] }

/-- Only 2xx status codes are processed; each content type of such a response
is processed independently. -/
def processResponse (fuel : Nat) (doc : OpenAPIDocument) (operationId : String)
    (acc : GenAcc) (entry : String × OpenAPIResponse) : GenAcc :=
  if ¬ jsStartsWith entry.1 "2" then acc
  else
    match entry.2.content with
    | none => acc
    | some contents => contents.foldl (processContent fuel doc operationId entry.1) acc

/-- `!operation.operationId` (missing or empty string). -/
def jsFalsyOptStr : Option String → Bool
  | none => true
  | some s => s = ""

/-- Processing of one `(method, operation)` entry of a path item: an
operation without a truthy `operationId` is skipped entirely. -/
def processOperation (fuel : Nat) (doc : OpenAPIDocument) (acc : GenAcc)
    (entry : String × OpenAPIOperation) : GenAcc :=
  if jsFalsyOptStr entry.2.operationId then acc
  else entry.2.responses.foldl
    (processResponse fuel doc (entry.2.operationId.getD "")) acc

def processPathItem (fuel : Nat) (doc : OpenAPIDocument) (acc : GenAcc)
    (entry : String × OpenAPIPathItem) : GenAcc :=
  entry.2.foldl (processOperation fuel doc) acc

/-- The assembled output: deduplicated enums, then base classes, then child
classes (the order in which the source concatenates them). -/
structure GenOut where
  enums : List GenEnum
  baseClasses : List GenClass
  childClasses : List GenClass
deriving DecidableEq

/-- The core of `generateClassesFromOpenAPI`, from the parsed document to the
assembled output: reset the schema-name cache, collect top-level enums, sort
the schemas by dependency, emit classes for schemas and then for operation
responses, and deduplicate each output section. -/
def generateClassesCore (fuel : Nat) (doc : OpenAPIDocument) (toks : List String) :
    GenOut :=
  let st0 : NameSt := ⟨[], [], [], [], toks⟩
  let enums0 := (getEnums doc).map (fun p => GenEnum.mk p.1 p.2)
  let sortedSchemas := sortSchemasByDependency (buildSchemaDependencyGraph doc)
  let acc0 : GenAcc := ⟨[], [], enums0, [], st0⟩
  let acc1 := sortedSchemas.foldl (processSchemaEntry fuel doc) acc0
  let acc2 := doc.paths.foldl (processPathItem fuel doc) acc1
  ⟨dedupFirstD acc2.generatedEnums, dedupFirstD acc2.baseClasses,
    dedupFirstD acc2.childClasses⟩

/-! ### Claims C4-C7, C10: scenario documents -/

def petSchema : JSchema :=
  withRequired ["name"]
    (withProps [("id", withType "integer" schema0), ("name", withType "string" schema0)]
      (withType "object" schema0))

def dogSchema : JSchema :=
  withAllOf [withRef "#/components/schemas/Pet" schema0,
             withProps [("breed", withType "string" schema0)] (withType "object" schema0)]
    schema0

/-- Scenario B document: `Dog` composed of a reference to `Pet` plus its own
`breed` field. -/
def docC4 : OpenAPIDocument := ⟨[], some [("Pet", petSchema), ("Dog", dogSchema)]⟩

/-- C4, counterexample: on the scenario-B document, `Dog extends Pet` is
generated, but its body does not declare only `breed`: the merged parent
properties `id` and `name` are re-declared in `Dog`. -/
theorem c4_inheritance_counterexample :
    ((generateClassesCore genFuel docC4 []).childClasses.map (fun c => c.name))
      = ["Dog"] ∧
    ((generateClassesCore genFuel docC4 []).childClasses.map (fun c => c.parent))
      = [some "Pet"] ∧
    ¬ ((generateClassesCore genFuel docC4 []).childClasses.map
        (fun c => c.props.map (fun p => p.name))) = [["breed"]] := by
  refine ⟨by decide, by decide, by decide⟩

/-- C4, amended: generation yields `Pet` as a base class and `Dog extends
Pet`, but `Dog`'s body re-declares the merged `id` and `name` together with
`breed` (`mergeParentProperties` folds parent fields into the child's
property list and nothing filters them out; `getNonParentProperties` exists
but is never invoked). -/
theorem c4_inheritance_amended :
    generateClassesCore genFuel docC4 [] =
      ⟨[],
       [⟨"Pet", none,
         [⟨"id", true, "number", ["@IsOptional()", "@IsInt()"]⟩,
          ⟨"name", false, "string", ["@IsString()"]⟩]⟩],
       [⟨"Dog", some "Pet",
         [⟨"id", true, "number", ["@IsOptional()", "@IsInt()"]⟩,
          ⟨"name", false, "string", ["@IsString()"]⟩,
          ⟨"breed", true, "string", ["@IsOptional()", "@IsString()"]⟩]⟩]⟩ := by
  decide

/-- An inline string enumeration with values `["available", "sold"]`. -/
def statusInline : JSchema := withEnum ["available", "sold"] (withType "string" schema0)

/-- Scenario C document: operation `getPet` with a 200 response carrying the
inline enumeration under `status` and a 404 response carrying the same
enumeration under `state`. -/
def docC5 : OpenAPIDocument :=
  ⟨[("/pet", [("get", ⟨some "getPet",
      [("200", ⟨some [("application/json",
        ⟨some (withProps [("status", statusInline)] (withType "object" schema0))⟩)]⟩),
       ("404", ⟨some [("application/json",
        ⟨some (withProps [("state", statusInline)] (withType "object" schema0))⟩)]⟩)]⟩)])],
   none⟩

/-- C5, counterexample: on the scenario-C document no `GetPet404Response`
class is generated at all — the only generated class is
`GetPet200Response` — because non-2xx responses are skipped. -/
theorem c5_operation_responses_counterexample :
    ((generateClassesCore genFuel docC5 []).baseClasses.map (fun c => c.name))
      = ["GetPet200Response"] ∧
    (generateClassesCore genFuel docC5 []).childClasses = [] := by
  refine ⟨by decide, by decide⟩

/-- C5, amended: only the 200 response is processed (the 2xx filter): it
yields `GetPet200Response` whose `status` property has the generated enum
type `GetPetStatus` with values `["available", "sold"]`; the 404 response is
skipped entirely and contributes neither a class nor an enum. -/
theorem c5_operation_responses_amended :
    generateClassesCore genFuel docC5 [] =
      ⟨[⟨"GetPetStatus", ["available", "sold"]⟩],
       [⟨"GetPet200Response", none,
         [⟨"status", true, "GetPetStatus",
           ["@IsOptional()", "@IsString()", "@IsEnum(GetPetStatus)"]⟩]⟩],
       []⟩ := by
  decide

/-- A document declaring a top-level enum `Status` and a schema `Pet` with an
inline enumeration of the same value set under field `state`. -/
def docC6 : OpenAPIDocument :=
  ⟨[], some [("Status", withEnum ["available", "sold"] (withType "string" schema0)),
             ("Pet", withProps [("state",
                withEnum ["available", "sold"] (withType "string" schema0))]
               (withType "object" schema0))]⟩

/-- C6, counterexample: two enumeration declarations in one run share the
identical value set `["available", "sold"]` yet do not resolve to one name —
the top-level declaration `Status` is never registered in the inline dedup
registry, so the inline occurrence mints a second declaration `PetState`. -/
theorem c6_enum_dedup_counterexample :
    (generateClassesCore genFuel docC6 []).enums =
      [⟨"Status", ["available", "sold"]⟩, ⟨"PetState", ["available", "sold"]⟩] ∧
    ¬ ("Status" = "PetState") := by
  refine ⟨by decide, by decide⟩

/-- The property schema of the C7 failing input: an inline string enumeration
declared in the order `["sold", "available"]`. -/
def c7schema : JSchema := withEnum ["sold", "available"] (withType "string" schema0)

/-- C7: evaluation at the failing input.  Emitting the property runs
`getEnumNameFromProperty`, whose `enumValues.sort()` sorts the document's
enum array in place: afterwards the schema holds `["available", "sold"]`,
not the declared `["sold", "available"]` — the core does mutate the parsed
document. -/
theorem c7_document_mutation_exhibit :
    (generateClassProperty genFuel "status" c7schema [] ⟨[], none⟩ [] "Pet"
        ⟨[], [], [], [], []⟩).updated.enum? = some ["available", "sold"] ∧
    c7schema.enum? = some ["sold", "available"] ∧
    ¬ (["available", "sold"] = ["sold", "available"]) := by
  refine ⟨by decide, by decide, by decide⟩

/-- C10: an operation entry whose `operationId` is missing (or empty, which
is equally falsy) is skipped entirely: none of its responses affect the
accumulated generation state, whatever their status codes and content
types. -/
theorem c10_missing_operation_id (fuel : Nat) (doc : OpenAPIDocument)
    (acc : GenAcc) (entry : String × OpenAPIOperation)
    (h : jsFalsyOptStr entry.2.operationId = true) :
    processOperation fuel doc acc entry = acc := by
  unfold processOperation
  rw [h]
  simp

/-- Witness for C10: a concrete operation with responses but no
`operationId` leaves a concrete accumulator unchanged. -/
theorem c10_missing_operation_id_witness :
    processOperation genFuel docC5 ⟨[], [], [], [], ⟨[], [], [], [], []⟩⟩
      ("get", ⟨none, [("200", ⟨some [("application/json",
        ⟨some (withType "string" schema0)⟩)]⟩)]⟩) =
      ⟨[], [], [], [], ⟨[], [], [], [], []⟩⟩ :=
  c10_missing_operation_id genFuel docC5 _ _ (by decide)


/-! ### Order theory of the JavaScript string sort, and enum-registry dedup -/

theorem char_eq_of_toNat_eq {a b : Char} (h : a.val.toNat = b.val.toNat) : a = b :=
  Char.ext (UInt32.toNat.inj h)

theorem chLeB_total : ∀ a b : List Char, chLeB a b = true ∨ chLeB b a = true
  | [], _ => Or.inl rfl
  | _ :: _, [] => Or.inr rfl
  | x :: xs, y :: ys => by
    by_cases hxy : x = y
    · subst hxy
      simpa [chLeB] using chLeB_total xs ys
    · have hne : ¬ (y = x) := fun h => hxy h.symm
      rcases Nat.lt_trichotomy x.val.toNat y.val.toNat with h | h | h
      · exact Or.inl (by simp [chLeB, hxy, h])
      · exact absurd (char_eq_of_toNat_eq h) hxy
      · exact Or.inr (by simp [chLeB, hne, h])

theorem chLeB_trans : ∀ a b c : List Char,
    chLeB a b = true → chLeB b c = true → chLeB a c = true
  | [], _, _, _, _ => rfl
  | _ :: _, [], _, h1, _ => by simp [chLeB] at h1
  | _ :: _, _ :: _, [], _, h2 => by simp [chLeB] at h2
  | x :: xs, y :: ys, z :: zs, h1, h2 => by
    by_cases hxy : x = y <;> by_cases hyz : y = z
    · subst hxy; subst hyz
      simp only [chLeB, if_pos rfl] at h1 h2 ⊢
      exact chLeB_trans xs ys zs h1 h2
    · subst hxy
      simpa [chLeB, hyz] using h2
    · subst hyz
      simpa [chLeB, hxy] using h1
    · simp only [chLeB, if_neg hxy] at h1
      simp only [chLeB, if_neg hyz] at h2
      have hlt : x.val.toNat < z.val.toNat :=
        Nat.lt_trans (of_decide_eq_true h1) (of_decide_eq_true h2)
      have hxz : ¬ (x = z) := fun h => by
        subst h
        exact Nat.lt_irrefl _ hlt
      simp [chLeB, hxz, hlt]

instance strLeP_total : IsTotal String strLeP :=
  ⟨fun a b => chLeB_total a.data b.data⟩

instance strLeP_trans : IsTrans String strLeP :=
  ⟨fun a b c h1 h2 => chLeB_trans a.data b.data c.data h1 h2⟩

theorem jsSortStrings_idem (l : List String) :
    jsSortStrings (jsSortStrings l) = jsSortStrings l :=
  List.Sorted.insertionSort_eq (List.sorted_insertionSort strLeP l)

theorem scanEnums_none_self (key : List String) :
    ∀ m m2, scanEnums key m = (none, m2) → scanEnums key m2 = (none, m2)
  | [], m2, h => by
    simp only [scanEnums, Prod.mk.injEq] at h
    rw [← h.2]
    rfl
  | (n, vs) :: rest, m2, h => by
    simp only [scanEnums] at h
    by_cases hk : jsSortStrings vs = key
    · rw [if_pos hk, Prod.mk.injEq] at h
      exact absurd h.1.symm (by simp)
    · rw [if_neg hk, Prod.mk.injEq] at h
      have hr : scanEnums key rest = (none, (scanEnums key rest).2) := by
        have h1 := h.1
        cases hrr : scanEnums key rest with
        | mk r rest2 =>
          rw [hrr] at h1
          simp at h1
          rw [h1]
      have hm2 : m2 = (n, jsSortStrings vs) :: (scanEnums key rest).2 := h.2.symm
      subst hm2
      have ih := scanEnums_none_self key rest (scanEnums key rest).2 hr
      simp only [scanEnums, jsSortStrings_idem, if_neg hk, ih]

theorem scanEnums_some_self (key : List String) :
    ∀ m n m2, scanEnums key m = (some n, m2) → scanEnums key m2 = (some n, m2)
  | [], n, m2, h => by simp [scanEnums] at h
  | (hn, hvs) :: rest, n, m2, h => by
    simp only [scanEnums] at h
    by_cases hk : jsSortStrings hvs = key
    · rw [if_pos hk, Prod.mk.injEq] at h
      have h1 : hn = n := by simpa using h.1
      have h2 : m2 = (hn, jsSortStrings hvs) :: rest := h.2.symm
      subst h1; subst h2
      simp only [scanEnums, jsSortStrings_idem, if_pos hk]
    · rw [if_neg hk, Prod.mk.injEq] at h
      cases hrr : scanEnums key rest with
      | mk r rest2 =>
        rw [hrr] at h
        have hr : r = some n := h.1
        have hm2 : m2 = (hn, jsSortStrings hvs) :: rest2 := h.2.symm
        subst hr; subst hm2
        have ih := scanEnums_some_self key rest n rest2 hrr
        simp only [scanEnums, jsSortStrings_idem, if_neg hk, ih]

theorem scanEnums_append_hit (key : List String) (n : String) (vs : List String)
    (hvs : jsSortStrings vs = key) :
    ∀ m, (scanEnums key m).1 = none →
      ∃ m2, scanEnums key (m ++ [(n, vs)]) = (some n, m2)
  | [], _ => by
    refine ⟨(n, jsSortStrings vs) :: [], ?_⟩
    simp [scanEnums, hvs]
  | (hn, hhvs) :: rest, h => by
    simp only [scanEnums] at h
    by_cases hk : jsSortStrings hhvs = key
    · rw [if_pos hk] at h
      simp at h
    · rw [if_neg hk] at h
      have hr : (scanEnums key rest).1 = none := by
        cases hrr : scanEnums key rest with
        | mk r rest2 =>
          rw [hrr] at h
          simpa using h
      obtain ⟨m2, hm2⟩ := scanEnums_append_hit key n vs hvs rest hr
      refine ⟨(hn, jsSortStrings hhvs) :: m2, ?_⟩
      have hm2b : scanEnums key (rest.append [(n, vs)]) = (some n, m2) := hm2
      simp only [List.cons_append, scanEnums, if_neg hk, hm2, hm2b]

theorem getEnum_second (p2 c2 : String) (vs2 : List String) (st1 : NameSt)
    (n : String) (m2 : List (String × List String))
    (h : scanEnums (jsSortStrings vs2) st1.usedEnums = (some n, m2)) :
    (getEnumNameFromProperty p2 vs2 c2 st1).1 = n := by
  unfold getEnumNameFromProperty
  simp only [h]


theorem getEnum_first (p1 c1 : String) (vs1 : List String) (st : NameSt) :
    ∃ m2, scanEnums (jsSortStrings vs1)
        (getEnumNameFromProperty p1 vs1 c1 st).2.1.usedEnums
      = (some (getEnumNameFromProperty p1 vs1 c1 st).1, m2) := by
  unfold getEnumNameFromProperty
  cases h1 : scanEnums (jsSortStrings vs1) st.usedEnums with
  | mk r1 ue =>
    cases r1 with
    | some n =>
      simp only [h1]
      exact ⟨ue, scanEnums_some_self (jsSortStrings vs1) st.usedEnums n ue h1⟩
    | none =>
      have hue1 : (scanEnums (jsSortStrings vs1) ue).1 = none := by
        rw [scanEnums_none_self (jsSortStrings vs1) st.usedEnums ue h1]
      simp only [h1]
      repeat' split
      all_goals
        exact scanEnums_append_hit (jsSortStrings vs1) _ (jsSortStrings vs1)
          (jsSortStrings_idem vs1) ue hue1

theorem enumName_repeat (p1 p2 c1 c2 : String) (vs1 vs2 : List String) (st : NameSt)
    (hs : jsSortStrings vs1 = jsSortStrings vs2) :
    (getEnumNameFromProperty p2 vs2 c2 (getEnumNameFromProperty p1 vs1 c1 st).2.1).1
      = (getEnumNameFromProperty p1 vs1 c1 st).1 := by
  obtain ⟨m2, hm⟩ := getEnum_first p1 c1 vs1 st
  rw [hs] at hm
  exact getEnum_second p2 c2 vs2 _ _ m2 hm


/-! ### Duplicate property names: suffix allocation -/

theorem digitChar_inj10 : ∀ a b : Fin 10,
    Nat.digitChar a.val = Nat.digitChar b.val → a = b := by decide

theorem digitChar_inj_lt {a b : Nat} (ha : a < 10) (hb : b < 10)
    (h : Nat.digitChar a = Nat.digitChar b) : a = b := by
  have := digitChar_inj10 ⟨a, ha⟩ ⟨b, hb⟩ h
  exact congrArg Fin.val this

theorem decimalDigits_stable : ∀ n f, n < f →
    decimalDigits f n = decimalDigits (n + 1) n := by
  intro n
  induction n using Nat.strong_induction_on with
  | _ n ih =>
    intro f hf
    obtain ⟨f0, rfl⟩ : ∃ f0, f = f0 + 1 := ⟨f - 1, by omega⟩
    by_cases h10 : n < 10
    · simp [decimalDigits, h10]
    · have hdiv : n / 10 < n := Nat.div_lt_self (by omega) (by omega)
      have hlt1 : n / 10 < f0 := by omega
      have e1 : decimalDigits (f0 + 1) n
          = decimalDigits f0 (n / 10) ++ [Nat.digitChar (n % 10)] := by
        simp [decimalDigits, h10]
      have e2 : decimalDigits (n + 1) n
          = decimalDigits n (n / 10) ++ [Nat.digitChar (n % 10)] := by
        simp [decimalDigits, h10]
      rw [e1, e2, ih (n / 10) hdiv f0 hlt1, ih (n / 10) hdiv n hdiv]

theorem natLitL_lt10 {n : Nat} (h : n < 10) :
    decimalDigits (n + 1) n = [Nat.digitChar n] := by
  simp [decimalDigits, h]

theorem natLitL_ge10 {n : Nat} (h : 10 ≤ n) :
    decimalDigits (n + 1) n
      = decimalDigits (n / 10 + 1) (n / 10) ++ [Nat.digitChar (n % 10)] := by
  have hdiv : n / 10 < n := Nat.div_lt_self (by omega) (by omega)
  have e2 : decimalDigits (n + 1) n
      = decimalDigits n (n / 10) ++ [Nat.digitChar (n % 10)] := by
    simp [decimalDigits]
    omega
  rw [e2, decimalDigits_stable (n / 10) n hdiv]

theorem natLitL_ne_nil (n : Nat) : decimalDigits (n + 1) n ≠ [] := by
  by_cases h : n < 10
  · rw [natLitL_lt10 h]
    simp
  · rw [natLitL_ge10 (by omega)]
    simp

theorem natLitL_inj : ∀ m n : Nat,
    decimalDigits (m + 1) m = decimalDigits (n + 1) n → m = n := by
  intro m
  induction m using Nat.strong_induction_on with
  | _ m ih =>
    intro n h
    by_cases hm : m < 10 <;> by_cases hn : n < 10
    · rw [natLitL_lt10 hm, natLitL_lt10 hn] at h
      exact digitChar_inj_lt hm hn (by simpa using h)
    · rw [natLitL_lt10 hm, natLitL_ge10 (by omega : 10 ≤ n)] at h
      have hlen := congrArg List.length h
      have hne := natLitL_ne_nil (n / 10)
      simp only [List.length_cons, List.length_nil, List.length_append] at hlen
      have : 0 < (decimalDigits (n / 10 + 1) (n / 10)).length :=
        List.length_pos.mpr hne
      omega
    · rw [natLitL_ge10 (by omega : 10 ≤ m), natLitL_lt10 hn] at h
      have hlen := congrArg List.length h
      have hne := natLitL_ne_nil (m / 10)
      simp only [List.length_cons, List.length_nil, List.length_append] at hlen
      have : 0 < (decimalDigits (m / 10 + 1) (m / 10)).length :=
        List.length_pos.mpr hne
      omega
    · rw [natLitL_ge10 (by omega : 10 ≤ m), natLitL_ge10 (by omega : 10 ≤ n)] at h
      obtain ⟨h1, h2⟩ := List.append_inj' h rfl
      have hdiv : m / 10 < m := Nat.div_lt_self (by omega) (by omega)
      have hd := ih (m / 10) hdiv (n / 10) h1
      have hmod : m % 10 = n % 10 :=
        digitChar_inj_lt (Nat.mod_lt _ (by omega)) (Nat.mod_lt _ (by omega))
          (by simpa using h2)
      omega

theorem natLit_inj {m n : Nat} (h : natLit m = natLit n) : m = n :=
  natLitL_inj m n (congrArg String.data h)

theorem str_append_cancel {p a b : String} (h : p ++ a = p ++ b) : a = b := by
  have hd : (p ++ a).data = (p ++ b).data := congrArg String.data h
  simp only [String.data_append] at hd
  cases a with
  | mk la =>
    cases b with
    | mk lb =>
      have : la = lb := List.append_cancel_left hd
      rw [this]

theorem uniquePropLoop_spec (p : String) (used : List String) :
    ∀ f k, (∃ i, i < f ∧ ¬ p ++ natLit (k + i) ∈ used) →
      ∃ i, i < f ∧ uniquePropLoop p used f k = p ++ natLit (k + i) ∧
        ¬ p ++ natLit (k + i) ∈ used ∧ ∀ j, j < i → p ++ natLit (k + j) ∈ used := by
  intro f
  induction f with
  | zero =>
    intro k h
    obtain ⟨i, hi, _⟩ := h
    omega
  | succ f ihf =>
    intro k h
    by_cases h0 : p ++ natLit k ∈ used
    · obtain ⟨i, hif, hi⟩ := h
      have hipos : 0 < i := by
        rcases Nat.eq_zero_or_pos i with h | h
        · subst h
          simp at hi
          exact absurd h0 hi
        · exact h
      have hrec : ∃ i, i < f ∧ ¬ p ++ natLit (k + 1 + i) ∈ used := by
        refine ⟨i - 1, by omega, ?_⟩
        have : k + 1 + (i - 1) = k + i := by omega
        rw [this]
        exact hi
      obtain ⟨i2, hi2f, heq, hnot, hall⟩ := ihf (k + 1) hrec
      refine ⟨i2 + 1, by omega, ?_, ?_, ?_⟩
      · have hk : k + (i2 + 1) = k + 1 + i2 := by omega
        rw [hk, ← heq]
        simp [uniquePropLoop, h0]
      · have hk : k + (i2 + 1) = k + 1 + i2 := by omega
        rw [hk]
        exact hnot
      · intro j hj
        rcases Nat.eq_zero_or_pos j with hz | hz
        · subst hz
          simpa using h0
        · have hk : k + j = k + 1 + (j - 1) := by omega
          rw [hk]
          exact hall (j - 1) (by omega)
    · refine ⟨0, by omega, ?_, by simpa using h0, fun j hj => absurd hj (Nat.not_lt_zero j)⟩
      simp [uniquePropLoop, h0]

theorem natLit_candidate_inj (p : String) :
    Function.Injective (fun i : Nat => p ++ natLit (1 + i)) := by
  intro i j h
  have := natLit_inj (str_append_cancel h)
  omega

theorem uniqueProp_exists (p : String) (used : List String) :
    ∃ i, i < used.length + 1 ∧ ¬ p ++ natLit (1 + i) ∈ used := by
  by_contra hc
  push_neg at hc
  have hsub : ∀ x ∈ (List.range (used.length + 1)).map
      (fun i => p ++ natLit (1 + i)), x ∈ used := by
    intro x hx
    obtain ⟨i, hi, rfl⟩ := List.mem_map.mp hx
    exact hc i (List.mem_range.mp hi)
  have hnd : ((List.range (used.length + 1)).map
      (fun i => p ++ natLit (1 + i))).Nodup :=
    (List.nodup_range _).map (natLit_candidate_inj p)
  have h1 := List.toFinset_card_of_nodup hnd
  have h2 : ((List.range (used.length + 1)).map
      (fun i => p ++ natLit (1 + i))).toFinset ⊆ used.toFinset := by
    intro x hx
    exact List.mem_toFinset.mpr (hsub x (List.mem_toFinset.mp hx))
  have h3 := List.toFinset_card_le used
  have h4 := Finset.card_le_card h2
  simp only [List.length_map, List.length_range] at h1
  omega

theorem uniquePropertyName_spec (p : String) (used : List String) :
    (¬ p ∈ used → uniquePropertyName p used = p) ∧
    (p ∈ used → ∃ k, 1 ≤ k ∧ uniquePropertyName p used = p ++ natLit k ∧
      ¬ (p ++ natLit k) ∈ used ∧ ∀ j, 1 ≤ j → j < k → p ++ natLit j ∈ used) := by
  constructor
  · intro h
    simp [uniquePropertyName, h]
  · intro h
    obtain ⟨i, hif, hi⟩ := uniqueProp_exists p used
    have hex : ∃ i, i < used.length + 1 ∧ ¬ p ++ natLit (1 + i) ∈ used := ⟨i, hif, hi⟩
    obtain ⟨i2, hi2f, heq, hnot, hall⟩ :=
      uniquePropLoop_spec p used (used.length + 1) 1 hex
    refine ⟨1 + i2, by omega, ?_, hnot, ?_⟩
    · rw [uniquePropertyName, if_neg (by simpa using h)]
      exact heq
    · intro j h1j hji
      have hj : 1 + (j - 1) = j := by omega
      have := hall (j - 1) (by omega)
      rw [hj] at this
      exact this

theorem genProp_name_used (fuel : Nat) (pName : String) (schema : JSchema)
    (required : List String) (doc : OpenAPIDocument) (used : List String)
    (context : String) (st : NameSt) :
    (generateClassProperty (fuel + 1) pName schema required doc used context st).prop.name
      = (if needsQuotes pName then "'" ++ pName ++ "'" else pName) ∧
    (generateClassProperty (fuel + 1) pName schema required doc used context st).usedProps
      = used ++ [uniquePropertyName pName used] := by
  unfold generateClassProperty
  cases hr : schema.ref?.bind (fun r => Option.map (fun rs => (r, rs)) (resolveRef r doc)) with
  | some pr =>
    obtain ⟨r, rs⟩ := pr
    simp only [hr]
    exact ⟨trivial, trivial⟩
  | none =>
    simp only [hr]
    repeat' split
    all_goals simp


/-! ### Name-registry invariants -/

theorem lookupStr_append_self {α : Type} (m : List (String × α)) (k : String)
    (v : α) (h : lookupStr m k = none) : lookupStr (m ++ [(k, v)]) k = some v := by
  induction m with
  | nil => simp [lookupStr]
  | cons p rest ih =>
    simp only [lookupStr, List.find?] at h ⊢
    cases hpk : (p.1 == k) with
    | true => simp [hpk] at h
    | false =>
      simp only [hpk] at h ⊢
      exact ih h

theorem lookupStr_append_cases {α : Type} (m : List (String × α)) (k k0 : String)
    (v : α) :
    lookupStr (m ++ [(k0, v)]) k = lookupStr m k ∨
      (lookupStr m k = none ∧ lookupStr (m ++ [(k0, v)]) k = some v ∧ k = k0) ∨
      (lookupStr m k = none ∧ lookupStr (m ++ [(k0, v)]) k = none ∧ ¬ k = k0) := by
  induction m with
  | nil =>
    by_cases hk : k0 = k
    · subst hk
      exact Or.inr (Or.inl ⟨rfl, by simp [lookupStr], rfl⟩)
    · refine Or.inr (Or.inr ⟨rfl, ?_, fun h => hk h.symm⟩)
      simp only [lookupStr, List.nil_append, List.find?]
      rw [show (k0 == k) = false by simpa using hk]
      rfl
  | cons p rest ih =>
    cases hpk : (p.1 == k) with
    | true =>
      refine Or.inl ?_
      simp only [lookupStr, List.cons_append, List.find?, hpk]
    | false =>
      have e1 : lookupStr ((p :: rest) ++ [(k0, v)]) k
          = lookupStr (rest ++ [(k0, v)]) k := by
        simp only [lookupStr, List.cons_append, List.find?, hpk]
        rfl
      have e2 : lookupStr (p :: rest) k = lookupStr rest k := by
        simp only [lookupStr, List.find?, hpk]
      rw [e1, e2]
      exact ih

theorem trySuffixes_not_used (base : String) (used : List String) :
    ∀ sfxs n, trySuffixes base used sfxs = some n → ¬ n ∈ used
  | [], n, h => by simp [trySuffixes] at h
  | sfx :: rest, n, h => by
    by_cases hu : (base ++ sfx) ∈ used
    · rw [trySuffixes, if_neg (not_not_intro hu)] at h
      exact trySuffixes_not_used base used rest n h
    · rw [trySuffixes, if_pos hu] at h
      cases h
      exact hu

/-- The registry invariant of the module-level `schemaToClassName` cache:
every cached name is in `usedNames`, and no two distinct keys are cached to
the same name. -/
def CacheInv (st : NameSt) : Prop :=
  (∀ k n, lookupStr st.cache k = some n → n ∈ st.used) ∧
  (∀ k1 k2 n, lookupStr st.cache k1 = some n → lookupStr st.cache k2 = some n →
    k1 = k2)

theorem schemaName_cached (k : String) (st : NameSt) (c : String)
    (h : lookupStr st.cache k = some c) :
    getClassNameFromSchemaName k st = (c, st) := by
  unfold getClassNameFromSchemaName
  simp [h]

theorem schemaName_fresh_alloc (k : String) (st : NameSt)
    (hno : lookupStr st.cache k = none)
    (hsafe : ¬ toPascalCase k ++ "_" ++ (popTok st.toks).1 ∈ st.used) :
    ¬ (getClassNameFromSchemaName k st).1 ∈ st.used ∧
    (getClassNameFromSchemaName k st).2.used
      = st.used ++ [(getClassNameFromSchemaName k st).1] ∧
    (getClassNameFromSchemaName k st).2.cache
      = st.cache ++ [(k, (getClassNameFromSchemaName k st).1)] := by
  unfold getClassNameFromSchemaName
  simp only [hno]
  by_cases h1 : k ∈ st.used
  · rw [if_neg (not_not_intro h1)]
    by_cases h2 : toPascalCase k ∈ st.used
    · rw [if_neg (not_not_intro h2)]
      cases h3 : trySuffixes (toPascalCase k) st.used
          ["Model", "Type", "Entity", "Object", "Data"] with
      | some n =>
        exact ⟨trySuffixes_not_used _ _ _ n h3, rfl, rfl⟩
      | none =>
        exact ⟨hsafe, rfl, rfl⟩
    · rw [if_pos h2]
      exact ⟨h2, rfl, rfl⟩
  · rw [if_pos h1]
    exact ⟨h1, rfl, rfl⟩

theorem schemaName_step (k : String) (st : NameSt) (hInv : CacheInv st)
    (hsafe : ¬ toPascalCase k ++ "_" ++ (popTok st.toks).1 ∈ st.used) :
    CacheInv (getClassNameFromSchemaName k st).2 ∧
    lookupStr (getClassNameFromSchemaName k st).2.cache k
      = some (getClassNameFromSchemaName k st).1 ∧
    (getClassNameFromSchemaName k st).1 ∈ (getClassNameFromSchemaName k st).2.used ∧
    (∀ x, x ∈ st.used → x ∈ (getClassNameFromSchemaName k st).2.used) := by
  cases hlk : lookupStr st.cache k with
  | some c =>
    rw [schemaName_cached k st c hlk]
    exact ⟨hInv, hlk, hInv.1 k c hlk, fun x hx => hx⟩
  | none =>
    obtain ⟨hfresh, hused, hcache⟩ := schemaName_fresh_alloc k st hlk hsafe
    have main : ∀ kx n,
        lookupStr (st.cache ++ [(k, (getClassNameFromSchemaName k st).1)]) kx
          = some n →
        lookupStr st.cache kx = some n ∨
          (n = (getClassNameFromSchemaName k st).1 ∧ kx = k) := by
      intro kx n hx
      rcases lookupStr_append_cases st.cache kx k
          (getClassNameFromSchemaName k st).1 with hc | hc | hc
      · exact Or.inl (by rw [← hc]; exact hx)
      · refine Or.inr ⟨?_, hc.2.2⟩
        have := hc.2.1.symm.trans hx
        exact (Option.some.inj this).symm
      · rw [hc.2.1] at hx
        cases hx
    have hlkafter : lookupStr (getClassNameFromSchemaName k st).2.cache k
        = some (getClassNameFromSchemaName k st).1 := by
      rw [hcache]
      exact lookupStr_append_self st.cache k _ hlk
    refine ⟨⟨?_, ?_⟩, hlkafter, ?_, ?_⟩
    · intro k0 n h0
      rw [hcache] at h0
      rw [hused]
      rcases main k0 n h0 with m | m
      · exact List.mem_append_left _ (hInv.1 k0 n m)
      · rw [m.1]
        simp
    · intro k1 k2 n h1 h2
      rw [hcache] at h1 h2
      rcases main k1 n h1 with m1 | m1 <;> rcases main k2 n h2 with m2 | m2
      · exact hInv.2 k1 k2 n m1 m2
      · have hn : ¬ n ∈ st.used := by
          rw [m2.1]
          exact hfresh
        exact absurd (hInv.1 k1 n m1) hn
      · have hn : ¬ n ∈ st.used := by
          rw [m1.1]
          exact hfresh
        exact absurd (hInv.1 k2 n m2) hn
      · rw [m1.2, m2.2]
    · rw [hused]
      simp
    · intro x hx
      rw [hused]
      exact List.mem_append_left _ hx


theorem opName_fresh (opId status : String) (st : NameSt)
    (hsafe : ¬ toPascalCase opId ++ status ++ "Response" ++ "_"
        ++ (popTok st.toks).1 ∈ st.used) :
    ¬ (getClassNameFromOperationId opId status st).1 ∈ st.used ∧
    (getClassNameFromOperationId opId status st).2.used
      = st.used ++ [(getClassNameFromOperationId opId status st).1] := by
  unfold getClassNameFromOperationId
  by_cases h1 : (toPascalCase opId ++ status ++ "Response") ∈ st.used
  · rw [if_neg (not_not_intro h1)]
    cases h3 : trySuffixes (toPascalCase opId ++ status ++ "Response") st.used
        ["Detail", "Extended", "Full", "Complete", "Info"] with
    | some n => exact ⟨trySuffixes_not_used _ _ _ n h3, rfl⟩
    | none => exact ⟨hsafe, rfl⟩
  · rw [if_pos h1]
    exact ⟨h1, rfl⟩


/-- C9: an unresolvable reference is harmless: `resolveRef` returns `none`
both for a reference that does not match the supported
`#/components/schemas/` shape and for a target absent from the schemas
mapping, and a property whose schema is a pure unresolvable `$ref` is emitted
with type `any`, with only the name-derived decorators, no nested class, no
enum, and no change to the name-allocator state. -/
theorem c9_unresolvable_ref :
    (∀ r doc, jsStartsWith r schemasRefHead = false → resolveRef r doc = none) ∧
    (∀ r doc, lookupStr (doc.schemas?.getD []) (stripSchemaRef r) = none →
      resolveRef r doc = none) ∧
    (∀ fuel pName r context (required usedProperties : List String)
        (doc : OpenAPIDocument) (st : NameSt), resolveRef r doc = none →
      generateClassProperty (fuel + 1) pName (withRef r schema0) required doc
          usedProperties context st =
        ⟨⟨if needsQuotes pName then "'" ++ pName ++ "'" else pName,
          ¬ pName ∈ required, "any",
          generateDecorators (withRef r schema0) pName (pName ∈ required)⟩,
         [], [], withRef r schema0,
         usedProperties ++ [uniquePropertyName pName usedProperties], st⟩) := by
  refine ⟨?_, ?_, ?_⟩
  · intro r doc h
    simp [resolveRef, h]
  · intro r doc h
    simp only [resolveRef, stripSchemaRef] at h ⊢
    rw [h]
    simp
  · intro fuel pName r context required usedProperties doc st h
    unfold generateClassProperty
    simp only [withRef, schema0, JSchema.ref?, JSchema.type?, JSchema.enum?,
      JSchema.properties?, JSchema.items?, h, Option.bind, Option.map]
    simp

/-- Witness for C9: a malformed reference and a missing target both resolve
to `none`, and the property over the missing target is emitted as `any`. -/
theorem c9_unresolvable_ref_witness :
    resolveRef "Pet" ⟨[], none⟩ = none ∧
    resolveRef "#/components/schemas/Missing" ⟨[], some [("Pet", petSchema)]⟩
      = none ∧
    generateClassProperty 5 "owner" (withRef "#/components/schemas/Missing" schema0)
        [] ⟨[], some [("Pet", petSchema)]⟩ [] "Pet" ⟨[], [], [], [], []⟩ =
      ⟨⟨if needsQuotes "owner" then "'" ++ "owner" ++ "'" else "owner",
        ¬ "owner" ∈ ([] : List String), "any",
        generateDecorators (withRef "#/components/schemas/Missing" schema0) "owner"
          ("owner" ∈ ([] : List String))⟩,
       [], [], withRef "#/components/schemas/Missing" schema0,
       [] ++ [uniquePropertyName "owner" []], ⟨[], [], [], [], []⟩⟩ :=
  ⟨c9_unresolvable_ref.1 "Pet" ⟨[], none⟩ (by decide),
   c9_unresolvable_ref.2.1 "#/components/schemas/Missing"
     ⟨[], some [("Pet", petSchema)]⟩ (by rfl),
   c9_unresolvable_ref.2.2 4 "owner" "#/components/schemas/Missing" "Pet" [] []
     ⟨[], some [("Pet", petSchema)]⟩ ⟨[], [], [], [], []⟩ (by rfl)⟩

/-- C6, amended: the inline registry itself does deduplicate up to value
order: two successive `getEnumNameFromProperty` calls whose value lists are
equal after sorting return the same enum name, whatever the field names and
contexts.  (Top-level enum declarations bypass this registry, which is what
the counterexample exhibits.) -/
theorem c6_enum_dedup_amended (p1 p2 c1 c2 : String) (vs1 vs2 : List String)
    (st : NameSt) (hs : jsSortStrings vs1 = jsSortStrings vs2) :
    (getEnumNameFromProperty p2 vs2 c2 (getEnumNameFromProperty p1 vs1 c1 st).2.1).1
      = (getEnumNameFromProperty p1 vs1 c1 st).1 :=
  enumName_repeat p1 p2 c1 c2 vs1 vs2 st hs

/-- Witness for the amended C6: `["A", "B"]` under field `status` and then
`["B", "A"]` under field `state` resolve to the same enum name. -/
theorem c6_enum_dedup_amended_witness :
    (getEnumNameFromProperty "state" ["B", "A"] "Pet"
        (getEnumNameFromProperty "status" ["A", "B"] "Order"
          ⟨[], [], [], [], []⟩).2.1).1
      = (getEnumNameFromProperty "status" ["A", "B"] "Order"
          ⟨[], [], [], [], []⟩).1 :=
  c6_enum_dedup_amended "status" "state" "Order" "Pet" ["A", "B"] ["B", "A"]
    ⟨[], [], [], [], []⟩ (by decide)

/-- C8, counterexample: with `name` already used in the class scope, the
suffix allocator computes `name1` and records it in the per-class registry,
but the emitted declaration still carries the original colliding name
`name`, not `name1`. -/
theorem c8_property_collision_counterexample :
    (generateClassProperty genFuel "name" (withType "string" schema0) []
        ⟨[], none⟩ ["name"] "Pet" ⟨[], [], [], [], []⟩).prop.name = "name" ∧
    (generateClassProperty genFuel "name" (withType "string" schema0) []
        ⟨[], none⟩ ["name"] "Pet" ⟨[], [], [], [], []⟩).usedProps
      = ["name", "name1"] ∧
    ¬ ("name" = "name1") := by
  refine ⟨by decide, by decide, by decide⟩

/-- C8, amended: `uniquePropertyName` returns the colliding name with the
first unused suffix `1, 2, 3, …` (every smaller suffix being used), and on a
collision-free name returns it unchanged; `generateClassProperty` records
that resolved name in the per-class registry — but the emitted property
declaration always keeps the original (only quoted if needed) name. -/
theorem c8_property_collision_amended :
    (∀ p used, ¬ p ∈ used → uniquePropertyName p used = p) ∧
    (∀ p (used : List String), p ∈ used →
      ∃ k, 1 ≤ k ∧ uniquePropertyName p used = p ++ natLit k ∧
        ¬ (p ++ natLit k) ∈ used ∧ ∀ j, 1 ≤ j → j < k → p ++ natLit j ∈ used) ∧
    (∀ fuel pName schema required doc used context st,
      (generateClassProperty (fuel + 1) pName schema required doc used context
          st).prop.name
        = (if needsQuotes pName then "'" ++ pName ++ "'" else pName) ∧
      (generateClassProperty (fuel + 1) pName schema required doc used context
          st).usedProps
        = used ++ [uniquePropertyName pName used]) :=
  ⟨fun p used h => (uniquePropertyName_spec p used).1 h,
   fun p used h => (uniquePropertyName_spec p used).2 h,
   fun fuel pName schema required doc used context st =>
     genProp_name_used fuel pName schema required doc used context st⟩

/-- Witness for the amended C8: `tag` is collision-free in `["a"]`; `name`
collides in `["name", "name1"]` and receives the first unused suffix. -/
theorem c8_property_collision_amended_witness :
    uniquePropertyName "tag" ["a"] = "tag" ∧
    (∃ k, 1 ≤ k ∧ uniquePropertyName "name" ["name", "name1"] = "name" ++ natLit k ∧
      ¬ ("name" ++ natLit k) ∈ ["name", "name1"] ∧
      ∀ j, 1 ≤ j → j < k → "name" ++ natLit j ∈ ["name", "name1"]) :=
  ⟨c8_property_collision_amended.1 "tag" ["a"] (by decide),
   c8_property_collision_amended.2.1 "name" ["name", "name1"] (by decide)⟩

theorem schemaName_cache_after (k : String) (st : NameSt) :
    lookupStr (getClassNameFromSchemaName k st).2.cache k
      = some (getClassNameFromSchemaName k st).1 := by
  cases hlk : lookupStr st.cache k with
  | some c =>
    rw [schemaName_cached k st c hlk]
    exact hlk
  | none =>
    unfold getClassNameFromSchemaName
    simp only [hlk]
    repeat' split
    all_goals exact lookupStr_append_self st.cache k _ hlk

theorem schemaName_distinct (k1 k2 : String) (st : NameSt) (hInv : CacheInv st)
    (hsafe1 : ¬ toPascalCase k1 ++ "_" ++ (popTok st.toks).1 ∈ st.used)
    (hsafe2 : ¬ toPascalCase k2 ++ "_"
        ++ (popTok (getClassNameFromSchemaName k1 st).2.toks).1
        ∈ (getClassNameFromSchemaName k1 st).2.used)
    (hne : ¬ k1 = k2) :
    ¬ (getClassNameFromSchemaName k2 (getClassNameFromSchemaName k1 st).2).1
      = (getClassNameFromSchemaName k1 st).1 := by
  obtain ⟨hInv1, hlk1, hmem1, hmono1⟩ := schemaName_step k1 st hInv hsafe1
  cases hlk2 : lookupStr (getClassNameFromSchemaName k1 st).2.cache k2 with
  | some c =>
    rw [schemaName_cached k2 (getClassNameFromSchemaName k1 st).2 c hlk2]
    intro hEq
    apply hne
    have h2 : lookupStr (getClassNameFromSchemaName k1 st).2.cache k2
        = some (getClassNameFromSchemaName k1 st).1 := by
      rw [← hEq]
      exact hlk2
    exact hInv1.2 k1 k2 _ hlk1 h2
  | none =>
    obtain ⟨hfresh2, _, _⟩ :=
      schemaName_fresh_alloc k2 (getClassNameFromSchemaName k1 st).2 hlk2 hsafe2
    intro hEq
    rw [hEq] at hfresh2
    exact hfresh2 hmem1

theorem opName_norepeat (opId status : String) (st : NameSt)
    (hsafe1 : ¬ toPascalCase opId ++ status ++ "Response" ++ "_"
        ++ (popTok st.toks).1 ∈ st.used)
    (hsafe2 : ¬ toPascalCase opId ++ status ++ "Response" ++ "_"
        ++ (popTok (getClassNameFromOperationId opId status st).2.toks).1
        ∈ (getClassNameFromOperationId opId status st).2.used) :
    ¬ (getClassNameFromOperationId opId status
          (getClassNameFromOperationId opId status st).2).1
      = (getClassNameFromOperationId opId status st).1 := by
  obtain ⟨hf1, hu1⟩ := opName_fresh opId status st hsafe1
  obtain ⟨hf2, hu2⟩ :=
    opName_fresh opId status (getClassNameFromOperationId opId status st).2 hsafe2
  intro hEq
  rw [hEq] at hf2
  apply hf2
  rw [hu1]
  simp

/-- C3, counterexample: the operation-response allocator performs no caching:
a repeated request for the very same `operationId`/status key returns a new
distinct name (`GetPet200Response`, then `GetPet200ResponseDetail`). -/
theorem c3_registry_counterexample :
    (getClassNameFromOperationId "getPet" "200" ⟨[], [], [], [], []⟩).1
      = "GetPet200Response" ∧
    (getClassNameFromOperationId "getPet" "200"
        (getClassNameFromOperationId "getPet" "200" ⟨[], [], [], [], []⟩).2).1
      = "GetPet200ResponseDetail" ∧
    ¬ ("GetPet200Response" = "GetPet200ResponseDetail") := by
  refine ⟨by decide, by decide, by decide⟩

/-- C3, amended: the schema-name registry and the enum registry do cache — a
repeated request returns the previously assigned name unconditionally — and,
provided the random fallback token is fresh when drawn (the code never
re-checks it), two distinct schema keys receive distinct names under the
cache invariant; the operation-response allocator, however, has no cache:
every call registers a fresh name, so a repeated request returns a new,
different name. -/
theorem c3_registry_invariant_amended :
    (∀ k st, getClassNameFromSchemaName k (getClassNameFromSchemaName k st).2
        = ((getClassNameFromSchemaName k st).1,
           (getClassNameFromSchemaName k st).2)) ∧
    (∀ p1 p2 c1 c2 vs1 vs2 st, jsSortStrings vs1 = jsSortStrings vs2 →
      (getEnumNameFromProperty p2 vs2 c2
          (getEnumNameFromProperty p1 vs1 c1 st).2.1).1
        = (getEnumNameFromProperty p1 vs1 c1 st).1) ∧
    (∀ k1 k2 st, CacheInv st →
      ¬ toPascalCase k1 ++ "_" ++ (popTok st.toks).1 ∈ st.used →
      ¬ toPascalCase k2 ++ "_"
          ++ (popTok (getClassNameFromSchemaName k1 st).2.toks).1
          ∈ (getClassNameFromSchemaName k1 st).2.used →
      ¬ k1 = k2 →
      ¬ (getClassNameFromSchemaName k2 (getClassNameFromSchemaName k1 st).2).1
        = (getClassNameFromSchemaName k1 st).1) ∧
    (∀ opId status st,
      ¬ toPascalCase opId ++ status ++ "Response" ++ "_"
          ++ (popTok st.toks).1 ∈ st.used →
      ¬ toPascalCase opId ++ status ++ "Response" ++ "_"
          ++ (popTok (getClassNameFromOperationId opId status st).2.toks).1
          ∈ (getClassNameFromOperationId opId status st).2.used →
      ¬ (getClassNameFromOperationId opId status
            (getClassNameFromOperationId opId status st).2).1
        = (getClassNameFromOperationId opId status st).1) :=
  ⟨fun k st => schemaName_cached k (getClassNameFromSchemaName k st).2
     (getClassNameFromSchemaName k st).1 (schemaName_cache_after k st),
   fun p1 p2 c1 c2 vs1 vs2 st hs => enumName_repeat p1 p2 c1 c2 vs1 vs2 st hs,
   fun k1 k2 st hInv h1 h2 hne => schemaName_distinct k1 k2 st hInv h1 h2 hne,
   fun opId status st h1 h2 => opName_norepeat opId status st h1 h2⟩

/-- Witness for the amended C3: concrete distinct schema keys receive
distinct class names, a sort-equal enum value set reuses its name, and a
repeated operation key receives a fresh distinct name. -/
theorem c3_registry_invariant_amended_witness :
    (getClassNameFromSchemaName "order"
        (getClassNameFromSchemaName "pet" ⟨[], [], [], [], ["t1", "t2"]⟩).2).1
      ≠ (getClassNameFromSchemaName "pet" ⟨[], [], [], [], ["t1", "t2"]⟩).1 ∧
    (getEnumNameFromProperty "kind" ["USD", "EUR"] "Account"
        (getEnumNameFromProperty "unit" ["EUR", "USD"] "Wallet"
          ⟨[], [], [], [], []⟩).2.1).1
      = (getEnumNameFromProperty "unit" ["EUR", "USD"] "Wallet"
          ⟨[], [], [], [], []⟩).1 ∧
    (getClassNameFromOperationId "listOrders" "201"
        (getClassNameFromOperationId "listOrders" "201"
          ⟨[], [], [], [], []⟩).2).1
      ≠ (getClassNameFromOperationId "listOrders" "201" ⟨[], [], [], [], []⟩).1 :=
  ⟨c3_registry_invariant_amended.2.2.1 "pet" "order" ⟨[], [], [], [], ["t1", "t2"]⟩
     ⟨fun k n h => by simp [lookupStr] at h,
      fun k1 k2 n h1 h2 => by simp [lookupStr] at h1⟩
     (by decide) (by decide) (by decide),
   c3_registry_invariant_amended.2.1 "unit" "kind" "Wallet" "Account"
     ["EUR", "USD"] ["USD", "EUR"] ⟨[], [], [], [], []⟩ (by decide),
   c3_registry_invariant_amended.2.2.2 "listOrders" "201" ⟨[], [], [], [], []⟩
     (by decide) (by decide)⟩

end OAG
